import Mathlib

/-!
Verification development for the vignet repository.

The embedding below translates the repository's Go code into Lean:

The YAML patch engine of yaml/patcher.go (the version using
vmware-labs yaml-jsonpath, whose tests are yaml/patcher_test.go):
documents are goyaml.Node trees; Patcher.SetField parses a JSONPath-style
path, finds matching nodes, and either sets the single match, errors on
zero or multiple matches, or (with createKeys) creates missing keys by
splitting the raw path on dots and walking mapping nodes
(recurseNodeByPath / handleDocumentNode / handleScalarNode /
handleMappingNode).

The mutate-commit-push pipeline of handler.go
(Handler.gitClonePatchCommitPush, Handler.applyPatchCommand,
Handler.buildCommitMsgAndOptions) and the Rego authorizer of
authorizer.go (RegoAuthorizer.AllowPatch) together with the handler's
translation of authorization outcomes into HTTP responses.

Machine integers do not occur on any modelled code path; file contents
are modelled as parsed document trees where only the pipeline structure
matters, and as raw strings where byte content matters.
-/

set_option linter.unusedVariables false

namespace Vignet

/-- The single quote character, used in JSONPath predicate literals. -/
def quoteChar : Char := Char.ofNat 39

/-- Scalar Go values that arrive as a setField value over the wire and are
handled by goyaml Node.Encode inside Patcher.SetField. -/
inductive GoValue where
  | str (s : String)
  | int (n : Int)
  | bool (b : Bool)
  | null
deriving DecidableEq

/-- YAML document tree, translated from goyaml.Node as used by the patcher:
a scalar node keeps its tag and raw value, a mapping node keeps its ordered
entry list (key string of the key node, child node) and a sequence node its
ordered child list.  The surrounding goyaml document node is handled at the
SetField entry point, mirroring handleDocumentNode. -/
inductive Node where
  | scalar (tag : String) (value : String)
  | mapping (entries : List (String × Node))
  | sequence (items : List Node)

/-- goyaml tag produced when Node.Encode re-encodes the given Go value. -/
def goTag : GoValue → String
  | .str _ => "!!str"
  | .int _ => "!!int"
  | .bool _ => "!!bool"
  | .null => "!!null"

/-- Raw scalar text produced when Node.Encode re-encodes the given Go value. -/
def goRaw : GoValue → String
  | .str s => s
  | .int n => toString n
  | .bool b => cond b "true" "false"
  | .null => "null"

/-- Node.Encode of a scalar Go value into a scalar node slot. -/
def encodeScalar (v : GoValue) : Node :=
  Node.scalar (goTag v) (goRaw v)

/-- The empty-document check of handleDocumentNode: a scalar node tagged
null is the decoding of an empty YAML document. -/
def isNullScalar : Node → Bool
  | .scalar tag _ => tag = "!!null"
  | _ => false

/-! ### Index-addressed list helpers

These mirror Go slice indexing on node.Content.  Mapping children are
addressed by entry index (the pair index, i.e. half of the Go Content
index), sequence children by item index. -/

/-- Element of a list at an index, if in range. -/
def getIdx? : List α → Nat → Option α
  | [], _ => none
  | x :: _, 0 => some x
  | _ :: rest, n + 1 => getIdx? rest n

/-- List with the element at an index replaced (identity when out of range). -/
def setIdx : List α → Nat → α → List α
  | [], _, _ => []
  | _ :: rest, 0, a => a :: rest
  | x :: rest, n + 1, a => x :: setIdx rest n a

/-- First mapping entry with the given key, with its entry index: the scan of
handleMappingNode over node.Content in steps of two. -/
def findEntry (k : String) : List (String × Node) → Option (Nat × Node)
  | [] => none
  | (k₀, c) :: rest =>
    if k₀ = k then some (0, c)
    else (findEntry k rest).map (fun p => (p.1 + 1, p.2))

/-! ### Path expressions (yamlpath)

Patcher.SetField parses its path with yamlpath.NewPath.  The subset of the
JSONPath grammar that the repository documents and exercises is:
dot-separated child names, a bracketed non-negative index, and a bracketed
equality predicate on a child field.  parsePath recognises exactly this
subset and refuses anything else. -/

/-- One parsed path segment. -/
inductive Segment where
  | key (k : String)
  | index (n : Nat)
  | pred (field : String) (value : String)
deriving DecidableEq

/-- Characters allowed in a bare child name or predicate field name. -/
def identChar (c : Char) : Bool := c.isAlphanum || c = '_' || c = '-'

/-- Accumulate decimal digits into a number. -/
def digitsToNat (acc : Nat) : List Char → Nat
  | [] => acc
  | c :: rest => digitsToNat (acc * 10 + (c.toNat - 48)) rest

/-- Drop leading spaces (around the == of a predicate). -/
def dropSpaces : List Char → List Char
  | ' ' :: rest => dropSpaces rest
  | cs => cs

/-- Parse the body of one bracket group, after the opening bracket:
either digits then a closing bracket (an index segment) or a
question-paren-at-dot predicate with a quoted literal. -/
def parseBracketBody (cs : List Char) : Option (Segment × List Char) :=
  match cs with
  | '?' :: '(' :: '@' :: '.' :: rest =>
    let p := rest.span identChar
    if p.1.isEmpty then none else
    match dropSpaces p.2 with
    | '=' :: '=' :: rest₂ =>
      match dropSpaces rest₂ with
      | c :: rest₃ =>
        if c = quoteChar then
          let q := rest₃.span (fun x => x ≠ quoteChar)
          match q.2 with
          | c₂ :: ')' :: ']' :: rest₄ =>
            if c₂ = quoteChar then
              some (Segment.pred (String.mk p.1) (String.mk q.1), rest₄)
            else none
          | _ => none
        else none
      | [] => none
    | _ => none
  | _ =>
    let d := cs.span Char.isDigit
    if d.1.isEmpty then none else
    match d.2 with
    | ']' :: rest₂ => some (Segment.index (digitsToNat 0 d.1), rest₂)
    | _ => none

/-- Parse zero or more bracket groups, fuelled by the input length. -/
def parseBrackets : Nat → List Char → Option (List Segment × List Char)
  | 0, _ => none
  | fuel + 1, cs =>
    match cs with
    | '[' :: rest =>
      match parseBracketBody rest with
      | some (seg, rest₂) =>
        (parseBrackets fuel rest₂).map (fun p => (seg :: p.1, p.2))
      | none => none
    | _ => some ([], cs)

/-- Parse a whole path: name, bracket groups, then optionally a dot and
another segment group. -/
def parseSegs : Nat → List Char → Option (List Segment)
  | 0, _ => none
  | fuel + 1, cs =>
    let p := cs.span identChar
    if p.1.isEmpty then none else
    match parseBrackets (fuel + 1) p.2 with
    | none => none
    | some (brs, rest) =>
      match rest with
      | [] => some (Segment.key (String.mk p.1) :: brs)
      | '.' :: rest₂ =>
        (parseSegs fuel rest₂).map (fun segs => (Segment.key (String.mk p.1) :: brs) ++ segs)
      | _ => none

/-- yamlpath.NewPath on the documented subset of the grammar. -/
def parsePath (s : String) : Option (List Segment) :=
  parseSegs (s.toList.length + 1) s.toList

/-- strings.Split of the raw path on a dot, used by the createKeys branch of
Patcher.SetField. -/
def splitDotAux (acc : List Char) : List Char → List String
  | [] => [String.mk acc.reverse]
  | c :: rest =>
    if c = '.' then String.mk acc.reverse :: splitDotAux [] rest
    else splitDotAux (c :: acc) rest

/-- strings.Split(path, ".") on a whole string. -/
def goSplitDot (s : String) : List String :=
  splitDotAux [] s.toList

/-! ### Path resolution (yamlpath Find) -/

/-- Does a node satisfy the predicate at-field-equals-literal?  It must be a
mapping with an entry of that key whose child is a scalar with that raw
value. -/
def hasFieldValue (f v : String) : Node → Bool
  | .mapping es =>
    es.any (fun e =>
      e.1 = f &&
        match e.2 with
        | .scalar _ w => w = v
        | _ => false)
  | _ => false

/-- Shift all candidate indices up by one. -/
def shiftIdx : List (Nat × Node) → List (Nat × Node)
  | [] => []
  | (i, c) :: rest => (i + 1, c) :: shiftIdx rest

/-- Children of a mapping selected by a key segment, with entry indices. -/
def keyCandidates (k : String) : List (String × Node) → List (Nat × Node)
  | [] => []
  | (k₀, c) :: rest =>
    if k₀ = k then (0, c) :: shiftIdx (keyCandidates k rest)
    else shiftIdx (keyCandidates k rest)

/-- Children of a sequence selected by a predicate segment, with indices. -/
def predCandidates (f v : String) : List Node → List (Nat × Node)
  | [] => []
  | x :: rest =>
    if hasFieldValue f v x then (0, x) :: shiftIdx (predCandidates f v rest)
    else shiftIdx (predCandidates f v rest)

/-- All children selected by one segment from one node, with their child
indices.  Key segments select mapping entries, index and predicate segments
select sequence items; any other combination selects nothing. -/
def childCandidates : Node → Segment → List (Nat × Node)
  | .mapping es, .key k => keyCandidates k es
  | .sequence xs, .index n =>
    match getIdx? xs n with
    | some c => [(n, c)]
    | none => []
  | .sequence xs, .pred f v => predCandidates f v xs
  | _, _ => []

/-- Concatenation of a list-valued function over a list. -/
def bindAll : List α → (α → List β) → List β
  | [], _ => []
  | x :: rest, f => f x ++ bindAll rest f

/-- Prepend one index step to every address in a match list. -/
def mapCons (i : Nat) : List (List Nat × Node) → List (List Nat × Node)
  | [] => []
  | (a, m) :: rest => (i :: a, m) :: mapCons i rest

/-- yamlpath Find: all nodes matched by a segment list, each with the
address (child-index path) where it sits in the tree. -/
def resolve : Node → List Segment → List (List Nat × Node)
  | n, [] => [([], n)]
  | n, seg :: rest =>
    bindAll (childCandidates n seg) (fun ic => mapCons ic.1 (resolve ic.2 rest))

/-- Node at an address. -/
def getAt : Node → List Nat → Option Node
  | n, [] => some n
  | .mapping es, i :: rest =>
    match getIdx? es i with
    | some e => getAt e.2 rest
    | none => none
  | .sequence xs, i :: rest =>
    match getIdx? xs i with
    | some c => getAt c rest
    | none => none
  | .scalar _ _, _ :: _ => none

/-- Tree with the node at an address replaced.  This is the functional
reading of mutating through the pointer yamlpath Find returned. -/
def setAt : Node → List Nat → Node → Node
  | _, [], m => m
  | .mapping es, i :: rest, m =>
    match getIdx? es i with
    | some e => .mapping (setIdx es i (e.1, setAt e.2 rest m))
    | none => .mapping es
  | .sequence xs, i :: rest, m =>
    match getIdx? xs i with
    | some c => .sequence (setIdx xs i (setAt c rest m))
    | none => .sequence xs
  | n, _ :: _, _ => n

/-! ### Key creation (recurseNodeByPath) -/

/-- Errors of the creation walk, wrapped by SetField as a creating-path
error. -/
inductive CreateErr where
  | expectedScalar
  | unexpectedKind
  | keyNotFound
deriving DecidableEq

/-- recurseNodeByPath with handleScalarNode and handleMappingNode fused in
(handleDocumentNode is applied at the SetField entry point).  On success it
returns the new tree together with the address of the value node the Go
code returns a pointer to. -/
def recurseNodeByPath : Node → List String → Bool → Except CreateErr (Node × List Nat)
  | n, [], _ =>
    match n with
    | .scalar t v => .ok (.scalar t v, [])
    | _ => .error .expectedScalar
  | .mapping es, k :: rest, createKeys =>
    match findEntry k es with
    | some ic =>
      match recurseNodeByPath ic.2 rest createKeys with
      | .error e => .error e
      | .ok (c, addr) => .ok (.mapping (setIdx es ic.1 (k, c)), ic.1 :: addr)
    | none =>
      if createKeys then
        if rest.isEmpty then
          .ok (.mapping (es ++ [(k, Node.scalar "" "")]), [es.length])
        else
          match recurseNodeByPath (Node.mapping []) rest createKeys with
          | .error e => .error e
          | .ok (c, addr) => .ok (.mapping (es ++ [(k, c)]), es.length :: addr)
      else .error .keyNotFound
  | _, _ :: _, _ => .error .unexpectedKind

/-! ### Patcher.SetField -/

/-- Errors returned by Patcher.SetField. -/
inductive SetFieldErr where
  | parsingPath
  | noNodesMatched
  | multipleNodesMatched
  | notScalar
  | creatingPath (e : CreateErr)
deriving DecidableEq

/-- Patcher.SetField: parse the path, find matches; with zero matches and
createKeys walk the dot-split raw path creating missing keys (turning an
empty document into an empty mapping first, per handleDocumentNode); with
zero matches and no createKeys fail; with more than one match fail; then
require a scalar value node and re-encode the value into it. -/
def SetField (root : Node) (path : String) (v : GoValue) (createKeys : Bool) :
    Except SetFieldErr Node :=
  match parsePath path with
  | none => .error .parsingPath
  | some segs =>
    match resolve root segs with
    | [] =>
      if createKeys then
        match recurseNodeByPath (if isNullScalar root then Node.mapping [] else root)
          (goSplitDot path) true with
        | .error e => .error (.creatingPath e)
        | .ok (root₁, addr) =>
          match getAt root₁ addr with
          | some (.scalar _ _) => .ok (setAt root₁ addr (encodeScalar v))
          | _ => .error .notScalar
      else .error .noNodesMatched
    | [am] =>
      match am.2 with
      | .scalar _ _ => .ok (setAt root am.1 (encodeScalar v))
      | _ => .error .notScalar
    | _ => .error .multipleNodesMatched

/-! ### Commit metadata (Handler.buildCommitMsgAndOptions) -/

/-- A commit signature (object.Signature without the wall-clock timestamp,
which is outside the model). -/
structure Signature where
  name : String
  email : String
deriving DecidableEq

/-- The commit section of the service configuration. -/
structure CommitConfig where
  defaultMessage : String
  defaultAuthor : Signature

/-- The identity claims of the caller used by the commit builder. -/
structure GitLabClaims where
  userLogin : String
  userEmail : String

/-- The commit section of a patch request. -/
structure PatchRequestCommit where
  message : String
  author : Option Signature
  committer : Option Signature

/-- Handler.buildCommitMsgAndOptions: the commit message defaults to the
configured default and is overwritten by a non-empty request message; the
author is the request author, else the configured default author; the
committer is the request committer, else an identity derived from the
GitLab claims when present, else left unset. -/
def buildCommitMsgAndOptions (cfg : CommitConfig) (claims : Option GitLabClaims)
    (rc : PatchRequestCommit) : String × Option Signature × Option Signature :=
  let commitMessage := if rc.message = "" then cfg.defaultMessage else rc.message
  let commitAuthor : Option Signature :=
    match rc.author with
    | some s => some s
    | none => some cfg.defaultAuthor
  let commitCommitter : Option Signature :=
    match rc.committer with
    | some s => some s
    | none =>
      match claims with
      | some cl => some ⟨cl.userLogin, cl.userEmail⟩
      | none => none
  (commitMessage, commitAuthor, commitCommitter)

/-! ### Command executor and pipeline (Handler.gitClonePatchCommitPush)

The request-scoped working tree is a list of (path, parsed document) pairs:
YAML byte-level encoding and decoding is outside the model, so a file's
content is represented by its document tree, and the pipeline-level
failure and ordering behaviour is preserved exactly. -/

/-- Does the path end with the given string (strings.HasSuffix)? -/
def strHasSuffix (s suf : String) : Bool :=
  suf.toList.isSuffixOf s.toList

/-- The allow-listed YAML extensions checked by applyPatchCommand. -/
def isYamlPath (p : String) : Bool :=
  strHasSuffix p ".yaml" || strHasSuffix p ".yml"

/-- First value stored under a path in a file tree. -/
def fsLookup : List (String × α) → String → Option α
  | [], _ => none
  | (p₀, a) :: rest, p => if p₀ = p then some a else fsLookup rest p

/-- Write a value under a path: replaces an existing file (billy memfs
Create truncates) and appends a new one. -/
def fsWrite : List (String × α) → String → α → List (String × α)
  | [], p, a => [(p, a)]
  | (p₀, a₀) :: rest, p, a =>
    if p₀ = p then (p, a) :: rest else (p₀, a₀) :: fsWrite rest p a

/-- One patch command as dispatched by applyPatchCommand: the Go struct
carries a path and at most one populated variant; a struct with no variant
populated hits the default branch. -/
inductive PatchCommand where
  | createFile (path : String) (content : Node)
  | setFieldCmd (path : String) (field : String) (value : GoValue) (create : Bool)
  | unknownCommand (path : String)

/-- The path a command addresses. -/
def cmdPath : PatchCommand → String
  | .createFile p _ => p
  | .setFieldCmd p _ _ _ => p
  | .unknownCommand p => p

/-- Errors of command application and of the surrounding pipeline. -/
inductive PatchErr where
  | unsupportedFileType
  | fileDoesNotExist
  | setFieldFailed (e : SetFieldErr)
  | unknownCommandType
  | cloneFailed
  | pushFailed
deriving DecidableEq

/-- Handler.applyPatchCommand: non-YAML extensions are rejected first;
createFile writes the content under the path; setFieldCmd opens the file
(absent file is an error), patches it with Patcher.SetField and writes the
result back; an unpopulated command is an error. -/
def applyPatchCommand (fs : List (String × Node)) (cmd : PatchCommand) :
    Except PatchErr (List (String × Node)) :=
  if isYamlPath (cmdPath cmd) = false then .error .unsupportedFileType
  else
    match cmd with
    | .createFile p content => .ok (fsWrite fs p content)
    | .setFieldCmd p f v c =>
      match fsLookup fs p with
      | none => .error .fileDoesNotExist
      | some node =>
        match SetField node f v c with
        | .error e => .error (.setFieldFailed e)
        | .ok node₁ => .ok (fsWrite fs p node₁)
    | .unknownCommand _ => .error .unknownCommandType

/-- The command loop of gitClonePatchCommitPush: commands run in request
order against the shared working tree and the first error aborts. -/
def applyCommands : List (String × Node) → List PatchCommand →
    Except PatchErr (List (String × Node))
  | fs, [] => .ok fs
  | fs, c :: rest =>
    match applyPatchCommand fs c with
    | .error e => .error e
    | .ok fs₁ => applyCommands fs₁ rest

/-- A commit built in the request-scoped repository. -/
structure CommitData where
  message : String
  author : Option Signature
  committer : Option Signature
  tree : List (String × Node)

/-- Observable trace of one pipeline run: the commits created in the
request-scoped repository, whether a push was attempted, the upstream
remote content afterwards, and the overall result. -/
structure PipelineTrace where
  commits : List CommitData
  pushAttempted : Bool
  remoteAfter : List (String × Node)
  result : Except PatchErr Unit

/-- Handler.gitClonePatchCommitPush: clone the remote tip into a fresh
request-scoped store, apply all commands in order (first failure aborts
before any commit is built), then build one commit and push it.  Clone and
push are external operations, represented by their success flags; a push
that succeeds publishes the new tree as the remote tip. -/
def gitClonePatchCommitPush (remote : List (String × Node)) (cloneOk pushOk : Bool)
    (cfg : CommitConfig) (claims : Option GitLabClaims) (rc : PatchRequestCommit)
    (cmds : List PatchCommand) : PipelineTrace :=
  if cloneOk = false then ⟨[], false, remote, .error .cloneFailed⟩
  else
    match applyCommands remote cmds with
    | .error e => ⟨[], false, remote, .error e⟩
    | .ok fs₁ =>
      let mo := buildCommitMsgAndOptions cfg claims rc
      let commit : CommitData := ⟨mo.1, mo.2.1, mo.2.2, fs₁⟩
      ⟨[commit], true, if pushOk then fs₁ else remote,
        if pushOk then .ok () else .error .pushFailed⟩

/-! ### Authorizer (RegoAuthorizer.AllowPatch) and its HTTP translation -/

/-- Value bound to msg in one Rego query result. -/
inductive RegoVal where
  | str (s : String)
  | nonString
deriving DecidableEq

/-- One Rego query result: the binding for msg, if present. -/
structure RegoResult where
  msgBinding : Option RegoVal

/-- Classified outcome of AllowPatch: nil error, an error implementing
ViolationsResolver, or any other error. -/
inductive AuthzOutcome where
  | allowed
  | violationsError (vs : List String)
  | unexpectedError
deriving DecidableEq

/-- The collection loop of AllowPatch: every result must carry a string
binding for msg, otherwise AllowPatch returns a plain error. -/
def collectMsgs : List RegoResult → Option (List String)
  | [] => some []
  | r :: rest =>
    match r.msgBinding with
    | some (.str m) => (collectMsgs rest).map (m :: ·)
    | _ => none

/-- RegoAuthorizer.AllowPatch over the outcome of evaluating the prepared
violations query: an evaluation error propagates as a plain error, an
empty result set means no violations (allow), and a non-empty result set
becomes an authorizerViolationsError carrying every message. -/
def AllowPatch (evalOutcome : Except Unit (List RegoResult)) : AuthzOutcome :=
  match evalOutcome with
  | .error _ => .unexpectedError
  | .ok results =>
    match results with
    | [] => .allowed
    | _ =>
      match collectMsgs results with
      | none => .unexpectedError
      | some vs => .violationsError vs

/-- Concatenation of a list of strings, as a strings.Builder loop. -/
def concatAll : List String → String
  | [] => ""
  | s :: rest => s ++ concatAll rest

/-- The violation message built by Handler.patch: one line per violation. -/
def renderViolations (vs : List String) : String :=
  concatAll (vs.map (fun v => "- " ++ v ++ "\n"))

/-- Handler.patch on the authorizer outcome, in the default text/plain
negotiation: no response is written on allow (the pipeline runs), a
ViolationsResolver error becomes a 403 whose body carries the rendered
violation list, and any other error becomes a 500 with a bare cause. -/
def patchAuthzResponse : AuthzOutcome → Option (Nat × String)
  | .allowed => none
  | .violationsError vs => some (403, "Authorization failed:\n\n" ++ renderViolations vs)
  | .unexpectedError => some (500, "Authorization error")

/-! ### Parts of the current handler that are absent from src

The repository files are historical snapshots: the handler version the
current end-to-end tests exercise (with a createFile existence check, a
deleteFile command and a validation that admits JSONPath segments) is not
among them, so the two definitions below are modelled from the spec and
checked against the expectations of end_to_end_test.go. -/

/-- Errors of the modelled create-file branch. -/
inductive CreateFileErr where
  | unsupportedFileType
  | fileAlreadyExists
deriving DecidableEq

/-- Modelled from the spec: the create-file branch of the current
applyPatchCommand, which is absent from src (the snapshots lack the
existence check that end_to_end_test.go expects).  Per the spec it fails
with FileAlreadyExists when the path already exists and otherwise writes
the literal content verbatim, with no YAML validation of the content. -/
def applyCreateFile (fs : List (String × String)) (p content : String) :
    Except CreateFileErr (List (String × String)) :=
  if isYamlPath p = false then .error .unsupportedFileType
  else if (fsLookup fs p).isSome then .error .fileAlreadyExists
  else .ok (fs ++ [(p, content)])

/-- Modelled from the spec: the field validation of the current
setFieldPatchRequestCommand.Validate, which is absent from src (the
snapshot in src rejects bracket segments, while the current end-to-end
tests send index and predicate segments and expect success).  Per the
spec, the field must be non-empty and a well-formed path of dot-separated
keys with optional index and predicate segments. -/
def validateSetFieldField (field : String) : Bool :=
  (field != "") && (parsePath field).isSome

/-- Substring containment, stated over the character lists. -/
def strContainsSub (s sub : String) : Prop :=
  ∃ pre post, s.toList = pre ++ sub.toList ++ post

/-- Replace the child carried by the candidate at one index. -/
def replaceAt (j : Nat) (c₁ : Node) (x : Nat × Node) : Nat × Node :=
  if x.1 = j then (x.1, c₁) else x

/-- Every predicate segment of the path selects on a field other than the
one the rest of the path immediately descends into: each predicate is
followed by a key segment with a different name.  Key and index segments
are unrestricted.  A predicate that is last, or that is followed by a
non-key segment, could only match the very node the set replaces (or no
node at all), so it is excluded. -/
def predsSafe : List Segment → Bool
  | [] => true
  | Segment.key _ :: rest => predsSafe rest
  | Segment.index _ :: rest => predsSafe rest
  | Segment.pred f _ :: rest =>
    (match rest with
     | Segment.key f₂ :: _ => f₂ != f
     | _ => false) && predsSafe rest

/-! ### Specification-level descriptions of the creation walk -/

/-- Does the walk along the dot-split parts pass only through mapping
nodes until a key is missing?  This is the shape of input on which the
createKeys walk of recurseNodeByPath can create keys: resolution failed
because a mapping key was absent, not because a non-mapping node blocked
the walk. -/
def missingWalk : Node → List String → Bool
  | .mapping es, k :: rest =>
    match findEntry k es with
    | some ic => missingWalk ic.2 rest
    | none => true
  | _, _ => false

/-- The chain of nested single-entry mappings ending in the encoded value,
as created below the first missing key. -/
def chainNode : List String → GoValue → Node
  | [], v => encodeScalar v
  | k :: rest, v => .mapping [(k, chainNode rest v)]

/-- Relation between the original document and the document produced by a
successful createKeys set: along the key path, each level with an existing
key keeps every entry except that one child, and the level with the first
missing key keeps all its entries and gains exactly the appended chain. -/
def createRel : Node → List String → GoValue → Node → Prop
  | .mapping es, k :: rest, v, out =>
    match findEntry k es with
    | some ic =>
      ∃ c₁, out = .mapping (setIdx es ic.1 (k, c₁)) ∧ createRel ic.2 rest v c₁
    | none => out = .mapping (es ++ [(k, chainNode rest v)])
  | _, _, _, _ => False

/-- The new entry list extends the old one by exactly one entry placed
after all existing entries, and the new last entry carries the given key:
the order-preservation shape of handleMappingNode's append. -/
def appendedLast (es es₁ : List (String × Node)) (k : String) : Prop :=
  es₁.length = es.length + 1 ∧ es₁.take es.length = es ∧
    (es₁.drop es.length).map Prod.fst = [k]

/-- Relation between the original document and the created document that
records, at every mapping into which a key is materialized, that the new
entry is appended after all existing entries (order preserved, created key
last), recursively through the created chain. -/
def appendRel : Node → List String → Node → Prop
  | .mapping es, k :: rest, out =>
    match findEntry k es with
    | some ic =>
      ∃ c₁, out = .mapping (setIdx es ic.1 (k, c₁)) ∧ appendRel ic.2 rest c₁
    | none =>
      ∃ es₁, out = .mapping es₁ ∧ appendedLast es es₁ k ∧
        (rest = [] ∨ ∃ child, es₁.drop es.length = [(k, child)] ∧
          appendRel (.mapping []) rest child)
  | _, _, _ => False

/-! ### Concrete documents used in witnesses and counterexamples -/

/-- A single-quote string for building predicate paths. -/
def cq : String := String.mk [quoteChar]

/-- The deployment document of the patcher tests (array index case). -/
def cDeploymentDoc : Node :=
  .mapping [("spec", .mapping [("template", .mapping [("spec", .mapping [("containers",
    .sequence [.mapping [("name", .scalar "!!str" "test"),
      ("image", .scalar "!!str" "test.example.com:latest")]])])])])]

/-- The container-env document of the patcher tests (predicate case). -/
def cEnvDoc : Node :=
  .mapping [("spec", .mapping [("template", .mapping [("spec", .mapping [("containers",
    .sequence [.mapping [("env", .sequence [
      .mapping [("name", .scalar "!!str" "FOO"), ("value", .scalar "!!str" "1")],
      .mapping [("name", .scalar "!!str" "BAR"), ("value", .scalar "!!str" "2")]])]])])])])]

/-- The predicate field path addressing the BAR entry. -/
def cPredFieldBar : String :=
  "spec.template.spec.containers[0].env[?(@.name==" ++ cq ++ "BAR" ++ cq ++ ")].value"

/-- The parsed segments of cPredFieldBar. -/
def cSegsBar : List Segment :=
  [Segment.key "spec", Segment.key "template", Segment.key "spec",
    Segment.key "containers", Segment.index 0, Segment.key "env",
    Segment.pred "name" "BAR", Segment.key "value"]

/-- cEnvDoc after the BAR value has been set to 42. -/
def cEnvDocBar42 : Node :=
  .mapping [("spec", .mapping [("template", .mapping [("spec", .mapping [("containers",
    .sequence [.mapping [("env", .sequence [
      .mapping [("name", .scalar "!!str" "FOO"), ("value", .scalar "!!str" "1")],
      .mapping [("name", .scalar "!!str" "BAR"), ("value", .scalar "!!str" "42")]])]])])])])]

/-- A document whose env sequence has two entries matching one predicate. -/
def cMultiDoc : Node :=
  .mapping [("env", .sequence [
    .mapping [("name", .scalar "!!str" "X"), ("value", .scalar "!!str" "1")],
    .mapping [("name", .scalar "!!str" "X"), ("value", .scalar "!!str" "2")]])]

/-- A predicate field path matching both entries of cMultiDoc. -/
def cPredFieldX : String :=
  "env[?(@.name==" ++ cq ++ "X" ++ cq ++ ")].value"

/-- A document with one env entry whose value field is the string 2. -/
def cSelfPredDoc : Node :=
  .mapping [("env", .sequence [.mapping [("value", .scalar "!!str" "2")]])]

/-- A predicate field path that selects entries by the very field it sets. -/
def cSelfPredField : String :=
  "env[?(@.value==" ++ cq ++ "2" ++ cq ++ ")].value"

/-! ### Helper lemmas -/

theorem getIdx?_split (l : List α) (k : Nat) (x : α) (h : getIdx? l k = some x) :
    l = l.take k ++ x :: l.drop (k + 1) := by
  induction l generalizing k with
  | nil => simp [getIdx?] at h
  | cons a rest ih =>
    cases k with
    | zero =>
      simp [getIdx?] at h
      simp [h]
    | succ k =>
      simp [getIdx?] at h
      simpa using ih k h

theorem applyCommands_append (l₁ l₂ : List PatchCommand) (fs : List (String × Node)) :
    applyCommands fs (l₁ ++ l₂) =
      match applyCommands fs l₁ with
      | .error e => .error e
      | .ok fs₁ => applyCommands fs₁ l₂ := by
  induction l₁ generalizing fs with
  | nil => simp [applyCommands]
  | cons c rest ih =>
    simp only [List.cons_append, applyCommands]
    cases applyPatchCommand fs c with
    | error e => rfl
    | ok fs₁ => exact ih fs₁

theorem fsLookup_append_self (fs : List (String × α)) (p : String) (c : α)
    (h : fsLookup fs p = none) : fsLookup (fs ++ [(p, c)]) p = some c := by
  induction fs with
  | nil => simp [fsLookup]
  | cons e rest ih =>
    match e with
    | (p₀, a) =>
      by_cases hp : p₀ = p
      · simp [fsLookup, hp] at h
      · simp [fsLookup, hp] at h ⊢
        exact ih h

theorem strContainsSub_append_left (a b sub : String)
    (h : strContainsSub b sub) : strContainsSub (a ++ b) sub := by
  obtain ⟨pre, post, hb⟩ := h
  refine ⟨a.toList ++ pre, post, ?_⟩
  simp only [String.toList] at hb ⊢
  simp [String.data_append, hb, List.append_assoc]

theorem renderViolations_contains (vs : List String) (v : String) (hv : v ∈ vs) :
    strContainsSub (renderViolations vs) ("- " ++ v ++ "\n") := by
  induction vs with
  | nil => cases hv
  | cons s rest ih =>
    have hrv : renderViolations (s :: rest) =
        ("- " ++ s ++ "\n") ++ renderViolations rest := by
      simp [renderViolations, concatAll]
    cases hv with
    | head =>
      exact ⟨[], (renderViolations rest).toList, by simp [hrv]⟩
    | tail _ hmem =>
      rw [hrv]
      exact strContainsSub_append_left _ _ _ (ih hmem)

theorem collectMsgs_map (vs : List String) :
    collectMsgs (vs.map (fun m => ⟨some (RegoVal.str m)⟩)) = some vs := by
  induction vs with
  | nil => rfl
  | cons s rest ih => simp [collectMsgs, ih]

/-! ### Index lemmas -/

theorem getIdx?_setIdx_self (l : List α) (i : Nat) (b a : α)
    (h : getIdx? l i = some b) : getIdx? (setIdx l i a) i = some a := by
  induction l generalizing i with
  | nil => simp [getIdx?] at h
  | cons x rest ih =>
    cases i with
    | zero => simp [getIdx?, setIdx]
    | succ i =>
      simp only [getIdx?, setIdx] at h ⊢
      exact ih i h

theorem setIdx_setIdx (l : List α) (i : Nat) (a b : α) :
    setIdx (setIdx l i a) i b = setIdx l i b := by
  induction l generalizing i with
  | nil => rfl
  | cons x rest ih =>
    cases i with
    | zero => rfl
    | succ i => simp [setIdx, ih]

theorem setIdx_getIdx_self (l : List α) (i : Nat) (a : α)
    (h : getIdx? l i = some a) : setIdx l i a = l := by
  induction l generalizing i with
  | nil => rfl
  | cons x rest ih =>
    cases i with
    | zero =>
      simp only [getIdx?, Option.some.injEq] at h
      simp [setIdx, h]
    | succ i =>
      simp only [getIdx?] at h
      simp [setIdx, ih i h]

theorem getIdx?_append_length (l : List α) (x : α) :
    getIdx? (l ++ [x]) l.length = some x := by
  induction l with
  | nil => rfl
  | cons a rest ih => simpa [getIdx?] using ih

theorem setIdx_append_length (l : List α) (x y : α) :
    setIdx (l ++ [x]) l.length y = l ++ [y] := by
  induction l with
  | nil => rfl
  | cons a rest ih => simp [setIdx, ih]

/-! ### Candidate-list lemmas -/

theorem mem_shiftIdx (l : List (Nat × Node)) (i : Nat) (c : Node) :
    (i, c) ∈ shiftIdx l ↔ ∃ j, i = j + 1 ∧ (j, c) ∈ l := by
  induction l with
  | nil => simp [shiftIdx]
  | cons p rest ih =>
    obtain ⟨j₀, c₀⟩ := p
    simp only [shiftIdx, List.mem_cons, ih, Prod.mk.injEq]
    constructor
    · rintro (⟨h1, h2⟩ | ⟨j, h1, h2⟩)
      · exact ⟨j₀, h1, Or.inl ⟨rfl, h2⟩⟩
      · exact ⟨j, h1, Or.inr h2⟩
    · rintro ⟨j, h1, ⟨h2, h3⟩ | h2⟩
      · subst h2
        exact Or.inl ⟨h1, h3⟩
      · exact Or.inr ⟨j, h1, h2⟩

theorem mem_keyCandidates (k : String) (es : List (String × Node)) (i : Nat) (c : Node) :
    (i, c) ∈ keyCandidates k es ↔ getIdx? es i = some (k, c) := by
  induction es generalizing i with
  | nil => simp [keyCandidates, getIdx?]
  | cons e rest ih =>
    obtain ⟨k₁, c₁⟩ := e
    by_cases hk : k₁ = k
    · subst hk
      cases i with
      | zero =>
        simp [keyCandidates, mem_shiftIdx, getIdx?, eq_comm]
      | succ i =>
        simp [keyCandidates, mem_shiftIdx, getIdx?, ih]
    · cases i with
      | zero =>
        simp [keyCandidates, hk, mem_shiftIdx, getIdx?, Ne.symm hk]
      | succ i =>
        simp [keyCandidates, hk, mem_shiftIdx, getIdx?, ih]

theorem mem_predCandidates (f v : String) (xs : List Node) (i : Nat) (c : Node) :
    (i, c) ∈ predCandidates f v xs ↔
      getIdx? xs i = some c ∧ hasFieldValue f v c = true := by
  induction xs generalizing i with
  | nil => simp [predCandidates, getIdx?]
  | cons x rest ih =>
    by_cases hx : hasFieldValue f v x = true
    · cases i with
      | zero =>
        simp [predCandidates, hx, mem_shiftIdx, getIdx?]
        constructor
        · intro h
          subst h
          exact ⟨rfl, hx⟩
        · rintro ⟨h1, h2⟩
          exact h1.symm
      | succ i =>
        simp [predCandidates, hx, mem_shiftIdx, getIdx?, ih]
    · cases i with
      | zero =>
        simp [predCandidates, hx, mem_shiftIdx, getIdx?]
        intro h
        subst h
        simpa using hx
      | succ i =>
        simp [predCandidates, hx, mem_shiftIdx, getIdx?, ih]

theorem shiftIdx_pairwise_lt (l : List (Nat × Node))
    (h : l.Pairwise (fun a b => a.1 < b.1)) :
    (shiftIdx l).Pairwise (fun a b => a.1 < b.1) := by
  induction l with
  | nil => simp [shiftIdx]
  | cons p rest ih =>
    rw [List.pairwise_cons] at h
    obtain ⟨i, c⟩ := p
    rw [show shiftIdx ((i, c) :: rest) = (i + 1, c) :: shiftIdx rest from rfl,
      List.pairwise_cons]
    refine ⟨?_, ih h.2⟩
    intro y hy
    obtain ⟨j₀, c₂⟩ := y
    obtain ⟨j, hj1, hj2⟩ := (mem_shiftIdx rest j₀ c₂).mp hy
    have := h.1 (j, c₂) hj2
    simp only at this ⊢
    omega

theorem keyCandidates_pairwise_lt (k : String) (es : List (String × Node)) :
    (keyCandidates k es).Pairwise (fun a b => a.1 < b.1) := by
  induction es with
  | nil => simp [keyCandidates]
  | cons e rest ih =>
    obtain ⟨k₁, c₁⟩ := e
    by_cases hk : k₁ = k
    · simp only [keyCandidates, if_pos hk]
      rw [List.pairwise_cons]
      refine ⟨?_, shiftIdx_pairwise_lt _ ih⟩
      intro y hy
      obtain ⟨j₀, c₂⟩ := y
      obtain ⟨j, hj1, _⟩ := (mem_shiftIdx _ j₀ c₂).mp hy
      simp only
      omega
    · simp only [keyCandidates, if_neg hk]
      exact shiftIdx_pairwise_lt _ ih

theorem keyCandidates_pairwise_ne (k : String) (es : List (String × Node)) :
    (keyCandidates k es).Pairwise (fun a b => a ≠ b) :=
  (keyCandidates_pairwise_lt k es).imp (fun h heq => by
    rw [heq] at h
    exact Nat.lt_irrefl _ h)

/-! ### findEntry lemmas -/

theorem findEntry_some_getIdx (k : String) (es : List (String × Node)) (i : Nat)
    (c : Node) (h : findEntry k es = some (i, c)) : getIdx? es i = some (k, c) := by
  induction es generalizing i with
  | nil => simp [findEntry] at h
  | cons e rest ih =>
    obtain ⟨k₁, c₁⟩ := e
    by_cases hk : k₁ = k
    · subst hk
      rw [findEntry, if_pos rfl, Option.some.injEq, Prod.mk.injEq] at h
      obtain ⟨h1, h2⟩ := h
      subst h2
      rw [← h1]
      rfl
    · rw [findEntry, if_neg hk, Option.map_eq_some'] at h
      obtain ⟨p, hp, hpe⟩ := h
      obtain ⟨i₀, c₀⟩ := p
      rw [Prod.mk.injEq] at hpe
      obtain ⟨h1, h2⟩ := hpe
      subst h2
      have : i = i₀ + 1 := by omega
      subst this
      simpa [getIdx?] using ih i₀ hp

theorem findEntry_none_keyCandidates (k : String) (es : List (String × Node))
    (h : findEntry k es = none) : keyCandidates k es = [] := by
  induction es with
  | nil => rfl
  | cons e rest ih =>
    obtain ⟨k₁, c₁⟩ := e
    by_cases hk : k₁ = k
    · simp [findEntry, hk] at h
    · rw [findEntry, if_neg hk, Option.map_eq_none'] at h
      simp [keyCandidates, hk, ih h, shiftIdx]

theorem keyCandidates_append_absent (k : String) (es : List (String × Node)) (c : Node)
    (h : findEntry k es = none) :
    keyCandidates k (es ++ [(k, c)]) = [(es.length, c)] := by
  induction es with
  | nil => simp [keyCandidates, shiftIdx]
  | cons e rest ih =>
    obtain ⟨k₁, c₁⟩ := e
    by_cases hk : k₁ = k
    · simp [findEntry, hk] at h
    · rw [findEntry, if_neg hk, Option.map_eq_none'] at h
      simp [keyCandidates, hk, ih h, shiftIdx]

/-! ### bindAll and mapCons lemmas -/

theorem bindAll_nil_iff (l : List α) (f : α → List β) :
    bindAll l f = [] ↔ ∀ x ∈ l, f x = [] := by
  induction l with
  | nil => simp [bindAll]
  | cons a rest ih => simp [bindAll, ih]

theorem mem_bindAll (l : List α) (f : α → List β) (x : β) :
    x ∈ bindAll l f ↔ ∃ a ∈ l, x ∈ f a := by
  induction l with
  | nil => simp [bindAll]
  | cons a rest ih =>
    simp only [bindAll, List.mem_append, ih, List.mem_cons]
    constructor
    · rintro (h | ⟨b, hb, hx⟩)
      · exact ⟨a, Or.inl rfl, h⟩
      · exact ⟨b, Or.inr hb, hx⟩
    · rintro ⟨b, rfl | hb, hx⟩
      · exact Or.inl hx
      · exact Or.inr ⟨b, hb, hx⟩

theorem bindAll_map (l : List α) (g : α → α) (f : α → List β) :
    bindAll (l.map g) f = bindAll l (fun x => f (g x)) := by
  induction l with
  | nil => rfl
  | cons a rest ih => simp [bindAll, ih]

theorem bindAll_eq_singleton_mp (l : List α) (f : α → List β) (r : β)
    (h : bindAll l f = [r]) :
    ∃ x ∈ l, f x = [r] ∧ ∀ y ∈ l, y ≠ x → f y = [] := by
  induction l with
  | nil => simp [bindAll] at h
  | cons a rest ih =>
    rw [show bindAll (a :: rest) f = f a ++ bindAll rest f from rfl] at h
    match hfa : f a with
    | [] =>
      rw [hfa, List.nil_append] at h
      obtain ⟨x, hx, hfx, hall⟩ := ih h
      refine ⟨x, List.mem_cons_of_mem _ hx, hfx, ?_⟩
      intro y hy hne
      rcases List.mem_cons.mp hy with rfl | hy₂
      · exact hfa
      · exact hall y hy₂ hne
    | b :: t =>
      rw [hfa] at h
      rw [List.cons_append, List.cons.injEq] at h
      obtain ⟨rfl, h₂⟩ := h
      have ht : t = [] ∧ bindAll rest f = [] := List.append_eq_nil.mp h₂
      refine ⟨a, List.mem_cons_self a rest, by rw [hfa, ht.1], ?_⟩
      intro y hy hne
      rcases List.mem_cons.mp hy with rfl | hy₂
      · exact absurd rfl hne
      · exact (bindAll_nil_iff rest f).mp ht.2 y hy₂

theorem bindAll_eq_singleton_mpr (l : List α) (f : α → List β) (r : β) (x : α)
    (hnd : l.Pairwise (fun a b => a ≠ b)) (hx : x ∈ l) (hfx : f x = [r])
    (ho : ∀ y ∈ l, y ≠ x → f y = []) : bindAll l f = [r] := by
  induction l with
  | nil => cases hx
  | cons a rest ih =>
    rw [List.pairwise_cons] at hnd
    rw [show bindAll (a :: rest) f = f a ++ bindAll rest f from rfl]
    rcases List.mem_cons.mp hx with rfl | hmem
    · have hrest : bindAll rest f = [] := by
        rw [bindAll_nil_iff]
        intro y hy
        exact ho y (List.mem_cons_of_mem _ hy) (fun he => hnd.1 y hy he.symm)
      rw [hfx, hrest, List.append_nil]
    · have hfa : f a = [] := by
        refine ho a (List.mem_cons_self a rest) ?_
        intro he
        exact hnd.1 x hmem he
      rw [hfa, List.nil_append]
      exact ih hnd.2 hmem (fun y hy hne => ho y (List.mem_cons_of_mem _ hy) hne)

theorem mapCons_nil_iff (i : Nat) (l : List (List Nat × Node)) :
    mapCons i l = [] ↔ l = [] := by
  cases l with
  | nil => simp [mapCons]
  | cons p rest =>
    match p with
    | (a, m) => simp [mapCons]

theorem mapCons_singleton (i : Nat) (l : List (List Nat × Node)) (a : List Nat)
    (m : Node) :
    mapCons i l = [(a, m)] ↔ ∃ a₀, a = i :: a₀ ∧ l = [(a₀, m)] := by
  cases l with
  | nil => simp [mapCons]
  | cons p rest =>
    obtain ⟨a₁, m₁⟩ := p
    constructor
    · intro h
      rw [show mapCons i ((a₁, m₁) :: rest) = (i :: a₁, m₁) :: mapCons i rest from rfl,
        List.cons.injEq] at h
      obtain ⟨h1, h2⟩ := h
      rw [mapCons_nil_iff] at h2
      subst h2
      rw [Prod.mk.injEq] at h1
      obtain ⟨h1a, h1b⟩ := h1
      subst h1b
      exact ⟨a₁, h1a.symm, rfl⟩
    · rintro ⟨a₀, h1, h2⟩
      rw [List.cons.injEq] at h2
      obtain ⟨h3, h4⟩ := h2
      subst h4
      rw [Prod.mk.injEq] at h3
      obtain ⟨h3a, h3b⟩ := h3
      subst h3a
      subst h3b
      subst h1
      rfl

theorem mem_mapCons (i : Nat) (l : List (List Nat × Node)) (a : List Nat) (m : Node) :
    (a, m) ∈ mapCons i l ↔ ∃ a₀, a = i :: a₀ ∧ (a₀, m) ∈ l := by
  induction l with
  | nil => simp [mapCons]
  | cons p rest ih =>
    obtain ⟨a₁, m₁⟩ := p
    rw [show mapCons i ((a₁, m₁) :: rest) = (i :: a₁, m₁) :: mapCons i rest from rfl]
    simp only [List.mem_cons, ih, Prod.mk.injEq]
    constructor
    · rintro (⟨h1, h2⟩ | ⟨a₀, h1, h2⟩)
      · subst h2
        exact ⟨a₁, h1, Or.inl ⟨rfl, rfl⟩⟩
      · exact ⟨a₀, h1, Or.inr h2⟩
    · rintro ⟨a₀, h1, ⟨h2, h3⟩ | h2⟩
      · subst h2
        subst h3
        exact Or.inl ⟨h1, rfl⟩
      · exact Or.inr ⟨a₀, h1, h2⟩

/-! ### resolve and address lemmas -/

theorem resolve_nil (n : Node) : resolve n [] = [([], n)] := by
  cases n <;> rfl

theorem getAt_nil (n : Node) : getAt n [] = some n := by
  cases n <;> rfl

theorem setAt_nil (n m : Node) : setAt n [] m = m := by
  cases n <;> rfl

theorem resolve_cons (n : Node) (seg : Segment) (rest : List Segment) :
    resolve n (seg :: rest) =
      bindAll (childCandidates n seg) (fun ic => mapCons ic.1 (resolve ic.2 rest)) := by
  cases n <;> rfl

theorem childCandidates_getAt (root : Node) (seg : Segment) (i : Nat) (c : Node)
    (h : (i, c) ∈ childCandidates root seg) (a : List Nat) :
    getAt root (i :: a) = getAt c a := by
  cases root with
  | scalar t w => simp [childCandidates] at h
  | mapping es =>
    cases seg with
    | key k =>
      have hidx := (mem_keyCandidates k es i c).mp h
      simp [getAt, hidx]
    | index n => simp [childCandidates] at h
    | pred f v => simp [childCandidates] at h
  | sequence xs =>
    cases seg with
    | key k => simp [childCandidates] at h
    | index n =>
      simp only [childCandidates] at h
      cases hidx : getIdx? xs n with
      | none => rw [hidx] at h; simp at h
      | some c₀ =>
        rw [hidx] at h
        simp at h
        obtain ⟨h1, h2⟩ := h
        subst h1
        subst h2
        simp [getAt, hidx]
    | pred f v =>
      have hidx := (mem_predCandidates f v xs i c).mp h
      simp [getAt, hidx.1]

theorem resolve_mem_getAt (segs : List Segment) :
    ∀ (root : Node) (a : List Nat) (n : Node),
      (a, n) ∈ resolve root segs → getAt root a = some n := by
  induction segs with
  | nil =>
    intro root a n h
    rw [resolve_nil] at h
    simp at h
    obtain ⟨h1, h2⟩ := h
    subst h1
    subst h2
    rw [getAt_nil]
  | cons seg rest ih =>
    intro root a n h
    rw [resolve_cons, mem_bindAll] at h
    obtain ⟨ic, hic, hmem⟩ := h
    obtain ⟨i, c⟩ := ic
    rw [mem_mapCons] at hmem
    obtain ⟨a₀, rfl, hmem₀⟩ := hmem
    rw [childCandidates_getAt root seg i c hic]
    exact ih c a₀ n hmem₀

theorem getAt_setAt_self (a : List Nat) :
    ∀ (root n₀ m : Node), getAt root a = some n₀ →
      getAt (setAt root a m) a = some m := by
  induction a with
  | nil =>
    intro root n₀ m h
    rw [setAt_nil, getAt_nil]
  | cons i rest ih =>
    intro root n₀ m h
    cases root with
    | scalar t w => simp [getAt] at h
    | mapping es =>
      cases hidx : getIdx? es i with
      | none => simp [getAt, hidx] at h
      | some e =>
        simp only [getAt, hidx] at h
        have hidx₁ := getIdx?_setIdx_self es i e (e.1, setAt e.2 rest m) hidx
        simp only [setAt, hidx, getAt, hidx₁]
        exact ih e.2 n₀ m h
    | sequence xs =>
      cases hidx : getIdx? xs i with
      | none => simp [getAt, hidx] at h
      | some c =>
        simp only [getAt, hidx] at h
        have hidx₁ := getIdx?_setIdx_self xs i c (setAt c rest m) hidx
        simp only [setAt, hidx, getAt, hidx₁]
        exact ih c n₀ m h

theorem setAt_getAt_self (a : List Nat) :
    ∀ (root m : Node), getAt root a = some m → setAt root a m = root := by
  induction a with
  | nil =>
    intro root m h
    rw [getAt_nil, Option.some.injEq] at h
    rw [setAt_nil, h]
  | cons i rest ih =>
    intro root m h
    cases root with
    | scalar t w => simp [getAt] at h
    | mapping es =>
      cases hidx : getIdx? es i with
      | none => simp [getAt, hidx] at h
      | some e =>
        simp only [getAt, hidx] at h
        simp only [setAt, hidx]
        rw [ih e.2 m h]
        rw [show (e.1, e.2) = e from rfl]
        rw [setIdx_getIdx_self es i e hidx]
    | sequence xs =>
      cases hidx : getIdx? xs i with
      | none => simp [getAt, hidx] at h
      | some c =>
        simp only [getAt, hidx] at h
        simp only [setAt, hidx]
        rw [ih c m h]
        rw [setIdx_getIdx_self xs i c hidx]

/-! ### Candidate stability under child replacement -/

theorem replaceAt_pos (j : Nat) (c₁ : Node) (i : Nat) (c : Node) (h : i = j) :
    replaceAt j c₁ (i, c) = (i, c₁) := by
  simp [replaceAt, h]

theorem replaceAt_neg (j : Nat) (c₁ : Node) (i : Nat) (c : Node) (h : i ≠ j) :
    replaceAt j c₁ (i, c) = (i, c) := by
  simp [replaceAt, h]

theorem map_replaceAt_shift_zero (l : List (Nat × Node)) (c₁ : Node) :
    (shiftIdx l).map (replaceAt 0 c₁) = shiftIdx l := by
  induction l with
  | nil => rfl
  | cons p rest ih =>
    obtain ⟨j, c⟩ := p
    rw [show shiftIdx ((j, c) :: rest) = (j + 1, c) :: shiftIdx rest from rfl,
      List.map_cons, replaceAt_neg 0 c₁ (j + 1) c (by omega), ih]

theorem shiftIdx_map_replaceAt (l : List (Nat × Node)) (j : Nat) (c₁ : Node) :
    shiftIdx (l.map (replaceAt j c₁)) =
      (shiftIdx l).map (replaceAt (j + 1) c₁) := by
  induction l with
  | nil => rfl
  | cons p rest ih =>
    obtain ⟨i, c⟩ := p
    rw [List.map_cons,
      show shiftIdx ((i, c) :: rest) = (i + 1, c) :: shiftIdx rest from rfl,
      List.map_cons]
    by_cases hij : i = j
    · rw [replaceAt_pos j c₁ i c hij, replaceAt_pos (j + 1) c₁ (i + 1) c (by omega),
        show shiftIdx ((i, c₁) :: List.map (replaceAt j c₁) rest) =
          (i + 1, c₁) :: shiftIdx (List.map (replaceAt j c₁) rest) from rfl, ih]
    · rw [replaceAt_neg j c₁ i c hij, replaceAt_neg (j + 1) c₁ (i + 1) c (by omega),
        show shiftIdx ((i, c) :: List.map (replaceAt j c₁) rest) =
          (i + 1, c) :: shiftIdx (List.map (replaceAt j c₁) rest) from rfl, ih]

theorem keyCandidates_setIdx (k : String) (es : List (String × Node)) (i : Nat)
    (k₀ : String) (c₀ c₁ : Node) (h : getIdx? es i = some (k₀, c₀)) :
    keyCandidates k (setIdx es i (k₀, c₁)) =
      (keyCandidates k es).map (replaceAt i c₁) := by
  induction es generalizing i with
  | nil => simp [getIdx?] at h
  | cons e rest ih =>
    obtain ⟨k₂, c₂⟩ := e
    cases i with
    | zero =>
      simp only [getIdx?, Option.some.injEq, Prod.mk.injEq] at h
      obtain ⟨h1, h2⟩ := h
      subst h1
      subst h2
      by_cases hk : k₂ = k
      · rw [show setIdx ((k₂, c₂) :: rest) 0 (k₂, c₁) = (k₂, c₁) :: rest from rfl]
        simp only [keyCandidates, if_pos hk, List.map_cons]
        rw [replaceAt_pos 0 c₁ 0 c₂ rfl, map_replaceAt_shift_zero]
      · rw [show setIdx ((k₂, c₂) :: rest) 0 (k₂, c₁) = (k₂, c₁) :: rest from rfl]
        simp only [keyCandidates, if_neg hk]
        rw [map_replaceAt_shift_zero]
    | succ i =>
      simp only [getIdx?] at h
      by_cases hk : k₂ = k
      · rw [show setIdx ((k₂, c₂) :: rest) (i + 1) (k₀, c₁) =
          (k₂, c₂) :: setIdx rest i (k₀, c₁) from rfl]
        simp only [keyCandidates, if_pos hk, List.map_cons]
        rw [replaceAt_neg (i + 1) c₁ 0 c₂ (by omega), ih i h, shiftIdx_map_replaceAt]
      · rw [show setIdx ((k₂, c₂) :: rest) (i + 1) (k₀, c₁) =
          (k₂, c₂) :: setIdx rest i (k₀, c₁) from rfl]
        simp only [keyCandidates, if_neg hk]
        rw [ih i h, shiftIdx_map_replaceAt]

theorem predCandidates_pairwise_lt (f v : String) (xs : List Node) :
    (predCandidates f v xs).Pairwise (fun a b => a.1 < b.1) := by
  induction xs with
  | nil => simp [predCandidates]
  | cons x rest ih =>
    by_cases hx : hasFieldValue f v x = true
    · simp only [predCandidates, if_pos hx]
      rw [List.pairwise_cons]
      refine ⟨?_, shiftIdx_pairwise_lt _ ih⟩
      intro y hy
      obtain ⟨j₀, c₂⟩ := y
      obtain ⟨j, hj1, _⟩ := (mem_shiftIdx _ j₀ c₂).mp hy
      simp only
      omega
    · simp only [predCandidates, if_neg hx]
      exact shiftIdx_pairwise_lt _ ih

theorem predCandidates_pairwise_ne (f v : String) (xs : List Node) :
    (predCandidates f v xs).Pairwise (fun a b => a ≠ b) :=
  (predCandidates_pairwise_lt f v xs).imp (fun h heq => by
    rw [heq] at h
    exact Nat.lt_irrefl _ h)

/-- Replacing the child of a mapping entry whose key differs from the
predicate field does not change whether the mapping satisfies the
predicate. -/
theorem hasFieldValue_setIdx (f v : String) (es : List (String × Node)) (j : Nat)
    (f₂ : String) (c₀ c₁ : Node) (h : getIdx? es j = some (f₂, c₀)) (hne : f₂ ≠ f) :
    hasFieldValue f v (Node.mapping (setIdx es j (f₂, c₁))) =
      hasFieldValue f v (Node.mapping es) := by
  induction es generalizing j with
  | nil => simp [getIdx?] at h
  | cons e rest ih =>
    obtain ⟨k₂, c₂⟩ := e
    cases j with
    | zero =>
      rw [show getIdx? ((k₂, c₂) :: rest) 0 = some (k₂, c₂) from rfl,
        Option.some.injEq, Prod.mk.injEq] at h
      obtain ⟨h1, _⟩ := h
      subst h1
      rw [show setIdx ((k₂, c₂) :: rest) 0 (k₂, c₁) = (k₂, c₁) :: rest from rfl]
      simp [hasFieldValue, hne]
    | succ j =>
      rw [show getIdx? ((k₂, c₂) :: rest) (j + 1) = getIdx? rest j from rfl] at h
      rw [show setIdx ((k₂, c₂) :: rest) (j + 1) (f₂, c₁) =
        (k₂, c₂) :: setIdx rest j (f₂, c₁) from rfl]
      have ih₂ := ih j h
      simp only [hasFieldValue, List.any_cons] at ih₂ ⊢
      rw [ih₂]

/-- Predicate candidate stability under child replacement: replacing one
sequence item by a node that satisfies the predicate the same way replaces
exactly that candidate and keeps all others. -/
theorem predCandidates_setIdx (f v : String) (xs : List Node) (i : Nat)
    (c c₁ : Node) (h : getIdx? xs i = some c)
    (hfv : hasFieldValue f v c₁ = hasFieldValue f v c) :
    predCandidates f v (setIdx xs i c₁) =
      (predCandidates f v xs).map (replaceAt i c₁) := by
  induction xs generalizing i with
  | nil => simp [getIdx?] at h
  | cons x rest ih =>
    cases i with
    | zero =>
      rw [show getIdx? (x :: rest) 0 = some x from rfl, Option.some.injEq] at h
      subst h
      rw [show setIdx (x :: rest) 0 c₁ = c₁ :: rest from rfl]
      by_cases hx : hasFieldValue f v x = true
      · simp only [predCandidates, if_pos hx, if_pos (hfv.trans hx), List.map_cons]
        rw [replaceAt_pos 0 c₁ 0 x rfl, map_replaceAt_shift_zero]
      · simp only [predCandidates, if_neg hx,
          if_neg (fun hh => hx (hfv.symm.trans hh))]
        rw [map_replaceAt_shift_zero]
    | succ i =>
      rw [show getIdx? (x :: rest) (i + 1) = getIdx? rest i from rfl] at h
      rw [show setIdx (x :: rest) (i + 1) c₁ = x :: setIdx rest i c₁ from rfl]
      by_cases hx : hasFieldValue f v x = true
      · simp only [predCandidates, if_pos hx, List.map_cons]
        rw [replaceAt_neg (i + 1) c₁ 0 x (by omega), ih i h, shiftIdx_map_replaceAt]
      · simp only [predCandidates, if_neg hx]
        rw [ih i h, shiftIdx_map_replaceAt]

/-! ### Resolution after mutation and after creation -/

theorem resolve_setAt_single (ks : List String) :
    ∀ (root : Node) (a : List Nat) (nOld m : Node),
      resolve root (ks.map Segment.key) = [(a, nOld)] →
      resolve (setAt root a m) (ks.map Segment.key) = [(a, m)] := by
  induction ks with
  | nil =>
    intro root a nOld m h
    rw [List.map_nil, resolve_nil] at h
    simp at h
    obtain ⟨h1, h2⟩ := h
    subst h1
    subst h2
    rw [List.map_nil, setAt_nil, resolve_nil]
  | cons k ks ih =>
    intro root a nOld m h
    cases root with
    | scalar t w => simp [resolve_cons, childCandidates, bindAll] at h
    | sequence xs => simp [resolve_cons, childCandidates, bindAll] at h
    | mapping es =>
      rw [List.map_cons, resolve_cons] at h
      simp only [childCandidates] at h
      obtain ⟨x, hx, hfx, ho⟩ := bindAll_eq_singleton_mp _ _ _ h
      obtain ⟨i, c⟩ := x
      simp only at hfx
      rw [mapCons_singleton] at hfx
      obtain ⟨a₀, rfl, hres⟩ := hfx
      have hidx := (mem_keyCandidates k es i c).mp hx
      have hset : setAt (Node.mapping es) (i :: a₀) m =
          Node.mapping (setIdx es i (k, setAt c a₀ m)) := by
        simp [setAt, hidx]
      rw [hset, List.map_cons, resolve_cons]
      simp only [childCandidates]
      rw [keyCandidates_setIdx k es i k c (setAt c a₀ m) hidx, bindAll_map]
      apply bindAll_eq_singleton_mpr _ _ _ (i, c) (keyCandidates_pairwise_ne k es) hx
      · simp only [replaceAt_pos i (setAt c a₀ m) i c rfl]
        rw [ih c a₀ nOld m hres]
        rfl
      · intro y hy hne
        obtain ⟨j, cj⟩ := y
        have hjidx := (mem_keyCandidates k es j cj).mp hy
        have hji : j ≠ i := by
          intro hji
          subst hji
          rw [hidx] at hjidx
          rw [Option.some.injEq, Prod.mk.injEq] at hjidx
          exact hne (by rw [hjidx.2])
        simp only [replaceAt_neg i (setAt c a₀ m) j cj hji]
        exact ho (j, cj) hy hne

/-- Singleton-match stability for every predicate-safe segment list: after
replacing the matched node, resolution still matches exactly the new node
at the same address.  Key and index candidates are untouched by the
replacement; predicate candidates are preserved because the replacement
descends through an entry whose key differs from the predicate field. -/
theorem resolve_setAt_stable (segs : List Segment) :
    ∀ (root : Node) (a : List Nat) (nOld m : Node),
      predsSafe segs = true →
      resolve root segs = [(a, nOld)] →
      resolve (setAt root a m) segs = [(a, m)] := by
  induction segs with
  | nil =>
    intro root a nOld m hsafe h
    rw [resolve_nil] at h
    simp at h
    obtain ⟨h1, h2⟩ := h
    subst h1
    subst h2
    rw [setAt_nil, resolve_nil]
  | cons seg rest ih =>
    intro root a nOld m hsafe h
    cases seg with
    | key k =>
      cases root with
      | scalar t w => simp [resolve_cons, childCandidates, bindAll] at h
      | sequence xs => simp [resolve_cons, childCandidates, bindAll] at h
      | mapping es =>
        have hsafe₂ : predsSafe rest = true := by
          simpa [predsSafe] using hsafe
        rw [resolve_cons] at h
        simp only [childCandidates] at h
        obtain ⟨x, hx, hfx, ho⟩ := bindAll_eq_singleton_mp _ _ _ h
        obtain ⟨i, c⟩ := x
        simp only at hfx
        rw [mapCons_singleton] at hfx
        obtain ⟨a₀, rfl, hres⟩ := hfx
        have hidx := (mem_keyCandidates k es i c).mp hx
        have hset : setAt (Node.mapping es) (i :: a₀) m =
            Node.mapping (setIdx es i (k, setAt c a₀ m)) := by
          simp [setAt, hidx]
        rw [hset, resolve_cons]
        simp only [childCandidates]
        rw [keyCandidates_setIdx k es i k c (setAt c a₀ m) hidx, bindAll_map]
        apply bindAll_eq_singleton_mpr _ _ _ (i, c) (keyCandidates_pairwise_ne k es) hx
        · simp only [replaceAt_pos i (setAt c a₀ m) i c rfl]
          rw [ih c a₀ nOld m hsafe₂ hres]
          rfl
        · intro y hy hne
          obtain ⟨j, cj⟩ := y
          have hjidx := (mem_keyCandidates k es j cj).mp hy
          have hji : j ≠ i := by
            intro hji
            subst hji
            rw [hidx] at hjidx
            rw [Option.some.injEq, Prod.mk.injEq] at hjidx
            exact hne (by rw [hjidx.2])
          simp only [replaceAt_neg i (setAt c a₀ m) j cj hji]
          exact ho (j, cj) hy hne
    | index n =>
      cases root with
      | scalar t w => simp [resolve_cons, childCandidates, bindAll] at h
      | mapping es => simp [resolve_cons, childCandidates, bindAll] at h
      | sequence xs =>
        have hsafe₂ : predsSafe rest = true := by
          simpa [predsSafe] using hsafe
        cases hidx : getIdx? xs n with
        | none =>
          have hcc : childCandidates (Node.sequence xs) (Segment.index n) = [] := by
            simp [childCandidates, hidx]
          rw [resolve_cons, hcc] at h
          simp [bindAll] at h
        | some c =>
          have hcc : childCandidates (Node.sequence xs) (Segment.index n) = [(n, c)] := by
            simp [childCandidates, hidx]
          rw [resolve_cons, hcc] at h
          rw [show bindAll [(n, c)] (fun ic => mapCons ic.1 (resolve ic.2 rest)) =
            mapCons n (resolve c rest) from by simp [bindAll]] at h
          rw [mapCons_singleton] at h
          obtain ⟨a₀, rfl, hres⟩ := h
          have hset : setAt (Node.sequence xs) (n :: a₀) m =
              Node.sequence (setIdx xs n (setAt c a₀ m)) := by
            simp [setAt, hidx]
          have hcc₁ : childCandidates (Node.sequence (setIdx xs n (setAt c a₀ m)))
              (Segment.index n) = [(n, setAt c a₀ m)] := by
            simp [childCandidates, getIdx?_setIdx_self xs n c (setAt c a₀ m) hidx]
          rw [hset, resolve_cons, hcc₁]
          rw [show bindAll [(n, setAt c a₀ m)]
            (fun ic => mapCons ic.1 (resolve ic.2 rest)) =
            mapCons n (resolve (setAt c a₀ m) rest) from by simp [bindAll]]
          rw [ih c a₀ nOld m hsafe₂ hres]
          rfl
    | pred f v₀ =>
      cases root with
      | scalar t w => simp [resolve_cons, childCandidates, bindAll] at h
      | mapping es => simp [resolve_cons, childCandidates, bindAll] at h
      | sequence xs =>
        cases rest with
        | nil => simp [predsSafe] at hsafe
        | cons seg₂ rest₂ =>
          cases seg₂ with
          | index n₂ => simp [predsSafe] at hsafe
          | pred f₃ v₃ => simp [predsSafe] at hsafe
          | key f₂ =>
            rw [show predsSafe
                (Segment.pred f v₀ :: Segment.key f₂ :: rest₂) =
              ((f₂ != f) && predsSafe (Segment.key f₂ :: rest₂)) from rfl,
              Bool.and_eq_true, bne_iff_ne] at hsafe
            obtain ⟨hfne, hsafe₂⟩ := hsafe
            rw [resolve_cons] at h
            simp only [childCandidates] at h
            obtain ⟨x, hx, hfx, ho⟩ := bindAll_eq_singleton_mp _ _ _ h
            obtain ⟨i, c⟩ := x
            simp only at hfx
            rw [mapCons_singleton] at hfx
            obtain ⟨a₀, rfl, hres⟩ := hfx
            obtain ⟨hidx, hfvc⟩ := (mem_predCandidates f v₀ xs i c).mp hx
            cases c with
            | scalar t₂ w₂ => simp [resolve_cons, childCandidates, bindAll] at hres
            | sequence xs₂ => simp [resolve_cons, childCandidates, bindAll] at hres
            | mapping es₂ =>
              rw [resolve_cons] at hres
              simp only [childCandidates] at hres
              obtain ⟨y, hy, hfy, ho₂⟩ := bindAll_eq_singleton_mp _ _ _ hres
              obtain ⟨j, c₂⟩ := y
              simp only at hfy
              rw [mapCons_singleton] at hfy
              obtain ⟨a₁, rfl, _⟩ := hfy
              have hjidx := (mem_keyCandidates f₂ es₂ j c₂).mp hy
              have hset₂ : setAt (Node.mapping es₂) (j :: a₁) m =
                  Node.mapping (setIdx es₂ j (f₂, setAt c₂ a₁ m)) := by
                simp [setAt, hjidx]
              have hfv : hasFieldValue f v₀ (setAt (Node.mapping es₂) (j :: a₁) m) =
                  hasFieldValue f v₀ (Node.mapping es₂) := by
                rw [hset₂]
                exact hasFieldValue_setIdx f v₀ es₂ j f₂ c₂ (setAt c₂ a₁ m) hjidx hfne
              have ihc := ih (Node.mapping es₂) (j :: a₁) nOld m hsafe₂ hres
              have hset : setAt (Node.sequence xs) (i :: j :: a₁) m =
                  Node.sequence (setIdx xs i (setAt (Node.mapping es₂) (j :: a₁) m)) := by
                simp [setAt, hidx]
              rw [hset, resolve_cons]
              simp only [childCandidates]
              rw [predCandidates_setIdx f v₀ xs i (Node.mapping es₂)
                (setAt (Node.mapping es₂) (j :: a₁) m) hidx hfv, bindAll_map]
              apply bindAll_eq_singleton_mpr _ _ _ (i, Node.mapping es₂)
                (predCandidates_pairwise_ne f v₀ xs) hx
              · simp only [replaceAt_pos i (setAt (Node.mapping es₂) (j :: a₁) m) i
                  (Node.mapping es₂) rfl]
                rw [ihc]
                rfl
              · intro y₂ hy₂ hne
                obtain ⟨j₂, cj₂⟩ := y₂
                obtain ⟨hjidx₂, _⟩ := (mem_predCandidates f v₀ xs j₂ cj₂).mp hy₂
                have hji : j₂ ≠ i := by
                  intro hji
                  subst hji
                  rw [hidx] at hjidx₂
                  rw [Option.some.injEq] at hjidx₂
                  exact hne (by rw [hjidx₂])
                simp only [replaceAt_neg i (setAt (Node.mapping es₂) (j :: a₁) m)
                  j₂ cj₂ hji]
                exact ho (j₂, cj₂) hy₂ hne

theorem resolve_after_create (ks : List String) :
    ∀ (root root₁ : Node) (addr : List Nat) (m : Node),
      resolve root (ks.map Segment.key) = [] →
      recurseNodeByPath root ks true = .ok (root₁, addr) →
      resolve (setAt root₁ addr m) (ks.map Segment.key) = [(addr, m)] := by
  induction ks with
  | nil =>
    intro root root₁ addr m hres hrec
    rw [List.map_nil, resolve_nil] at hres
    simp at hres
  | cons k ks ih =>
    intro root root₁ addr m hres hrec
    cases root with
    | scalar t w => simp [recurseNodeByPath] at hrec
    | sequence xs => simp [recurseNodeByPath] at hrec
    | mapping es =>
      rw [List.map_cons, resolve_cons] at hres
      simp only [childCandidates] at hres
      rw [bindAll_nil_iff] at hres
      cases hfe : findEntry k es with
      | some ic =>
        obtain ⟨i, c⟩ := ic
        simp only [recurseNodeByPath, hfe] at hrec
        cases hrec₂ : recurseNodeByPath c ks true with
        | error e => rw [hrec₂] at hrec; simp at hrec
        | ok p =>
          obtain ⟨c₁, addr₀⟩ := p
          rw [hrec₂] at hrec
          simp only [Except.ok.injEq, Prod.mk.injEq] at hrec
          obtain ⟨hroot₁, haddr⟩ := hrec
          subst hroot₁
          subst haddr
          have hidx := findEntry_some_getIdx k es i c hfe
          have hresc : resolve c (ks.map Segment.key) = [] := by
            have hm := hres (i, c) ((mem_keyCandidates k es i c).mpr hidx)
            simp only at hm
            rw [mapCons_nil_iff] at hm
            exact hm
          have ih₂ := ih c c₁ addr₀ m hresc hrec₂
          have hidx₁ := getIdx?_setIdx_self es i (k, c) (k, c₁) hidx
          have hset : setAt (Node.mapping (setIdx es i (k, c₁))) (i :: addr₀) m =
              Node.mapping (setIdx es i (k, setAt c₁ addr₀ m)) := by
            simp [setAt, hidx₁, setIdx_setIdx]
          rw [hset, List.map_cons, resolve_cons]
          simp only [childCandidates]
          rw [keyCandidates_setIdx k es i k c (setAt c₁ addr₀ m) hidx, bindAll_map]
          apply bindAll_eq_singleton_mpr _ _ _ (i, c) (keyCandidates_pairwise_ne k es)
            ((mem_keyCandidates k es i c).mpr hidx)
          · simp only [replaceAt_pos i (setAt c₁ addr₀ m) i c rfl]
            rw [ih₂]
            rfl
          · intro y hy hne
            obtain ⟨j, cj⟩ := y
            have hjidx := (mem_keyCandidates k es j cj).mp hy
            have hji : j ≠ i := by
              intro hji
              subst hji
              rw [hidx] at hjidx
              rw [Option.some.injEq, Prod.mk.injEq] at hjidx
              exact hne (by rw [hjidx.2])
            simp only [replaceAt_neg i (setAt c₁ addr₀ m) j cj hji]
            exact hres (j, cj) hy
      | none =>
        simp only [recurseNodeByPath, hfe] at hrec
        cases ks with
        | nil =>
          simp at hrec
          obtain ⟨hroot₁, haddr⟩ := hrec
          subst hroot₁
          subst haddr
          have hidx := getIdx?_append_length es (k, Node.scalar "" "")
          have hset : setAt (Node.mapping (es ++ [(k, Node.scalar "" "")]))
              [es.length] m = Node.mapping (es ++ [(k, m)]) := by
            simp [setAt, hidx, setIdx_append_length]
          rw [hset, List.map_cons, resolve_cons]
          simp only [childCandidates]
          rw [keyCandidates_append_absent k es m hfe]
          simp [bindAll, mapCons, resolve_nil]
        | cons k₂ ks₂ =>
          simp only [List.isEmpty] at hrec
          cases hrec₂ : recurseNodeByPath (Node.mapping []) (k₂ :: ks₂) true with
          | error e => rw [hrec₂] at hrec; simp at hrec
          | ok p =>
            obtain ⟨c₁, addr₀⟩ := p
            rw [hrec₂] at hrec
            have hrec₃ : (Except.ok (Node.mapping (es ++ [(k, c₁)]), es.length :: addr₀) :
                Except CreateErr (Node × List Nat)) = .ok (root₁, addr) := hrec
            rw [Except.ok.injEq, Prod.mk.injEq] at hrec₃
            obtain ⟨hroot₁, haddr⟩ := hrec₃
            subst hroot₁
            subst haddr
            have hresc : resolve (Node.mapping []) ((k₂ :: ks₂).map Segment.key) = [] := by
              simp [resolve_cons, childCandidates, keyCandidates, bindAll]
            have ih₂ := ih (Node.mapping []) c₁ addr₀ m hresc hrec₂
            have hidx := getIdx?_append_length es (k, c₁)
            have hset : setAt (Node.mapping (es ++ [(k, c₁)])) (es.length :: addr₀) m =
                Node.mapping (es ++ [(k, setAt c₁ addr₀ m)]) := by
              simp [setAt, hidx, setIdx_append_length]
            rw [hset, List.map_cons, resolve_cons]
            simp only [childCandidates]
            rw [keyCandidates_append_absent k es (setAt c₁ addr₀ m) hfe]
            simp only [bindAll, List.append_nil]
            rw [ih₂]
            rfl

/-! ### The createKeys walk on a missing-key path -/

theorem missingWalk_nil (root : Node) : missingWalk root [] = false := by
  cases root <;> rfl

theorem recurseNodeByPath_missing (ks : List String) :
    ∀ (root : Node), missingWalk root ks = true →
      ∃ root₁ addr, recurseNodeByPath root ks true = .ok (root₁, addr) ∧
        getAt root₁ addr = some (Node.scalar "" "") ∧
        ∀ v, createRel root ks v (setAt root₁ addr (encodeScalar v)) := by
  induction ks with
  | nil =>
    intro root h
    rw [missingWalk_nil] at h
    cases h
  | cons k ks ih =>
    intro root h
    cases root with
    | scalar t w => simp [missingWalk] at h
    | sequence xs => simp [missingWalk] at h
    | mapping es =>
      cases hfe : findEntry k es with
      | some ic =>
        obtain ⟨i, c⟩ := ic
        simp only [missingWalk, hfe] at h
        obtain ⟨c₁, addr₀, hrec, hget, hrel⟩ := ih c h
        have hidx := findEntry_some_getIdx k es i c hfe
        have hidx₁ := getIdx?_setIdx_self es i (k, c) (k, c₁) hidx
        refine ⟨Node.mapping (setIdx es i (k, c₁)), i :: addr₀, ?_, ?_, ?_⟩
        · simp [recurseNodeByPath, hfe, hrec]
        · simp [getAt, hidx₁, hget]
        · intro v
          simp only [createRel, hfe]
          have hidx₂ := getIdx?_setIdx_self es i (k, c) (k, c₁) hidx
          refine ⟨setAt c₁ addr₀ (encodeScalar v), ?_, hrel v⟩
          simp [setAt, hidx₂, setIdx_setIdx]
      | none =>
        cases ks with
        | nil =>
          refine ⟨Node.mapping (es ++ [(k, Node.scalar "" "")]), [es.length], ?_, ?_, ?_⟩
          · simp [recurseNodeByPath, hfe]
          · simp [getAt, getIdx?_append_length]
          · intro v
            simp only [createRel, hfe]
            simp [setAt, getIdx?_append_length, setIdx_append_length, chainNode]
        | cons k₂ ks₂ =>
          have hw : missingWalk (Node.mapping []) (k₂ :: ks₂) = true := by
            simp [missingWalk, findEntry]
          obtain ⟨c₁, addr₀, hrec, hget, hrel⟩ := ih (Node.mapping []) hw
          refine ⟨Node.mapping (es ++ [(k, c₁)]), es.length :: addr₀, ?_, ?_, ?_⟩
          · have hrec₂ := hrec
            simp only [recurseNodeByPath] at hrec₂
            simp only [recurseNodeByPath, hfe, hrec₂]
            simp
          · simp [getAt, getIdx?_append_length, hget]
          · intro v
            simp only [createRel, hfe]
            have hsub : setAt c₁ addr₀ (encodeScalar v) = chainNode (k₂ :: ks₂) v := by
              have hr := hrel v
              simp only [createRel, findEntry] at hr
              rw [hr]
              simp [chainNode]
            simp [setAt, getIdx?_append_length, setIdx_append_length, hsub]

/-! ### Claim theorems -/

/-- C1: in the pipeline of Handler.gitClonePatchCommitPush, if the first k
commands of a request succeed and command k fails, the run aborts before
the commit step: no commit is created in the request-scoped repository, no
push is attempted, and the upstream remote is unchanged. -/
theorem c1_pipeline_atomicity
    (remote fsK : List (String × Node)) (cmds : List PatchCommand) (k : Nat)
    (ck : PatchCommand) (e : PatchErr) (pushOk : Bool) (cfg : CommitConfig)
    (claims : Option GitLabClaims) (rc : PatchRequestCommit)
    (h1 : applyCommands remote (cmds.take k) = .ok fsK)
    (h2 : getIdx? cmds k = some ck)
    (h3 : applyPatchCommand fsK ck = .error e) :
    gitClonePatchCommitPush remote true pushOk cfg claims rc cmds =
      ⟨[], false, remote, .error e⟩ := by
  have hsplit := getIdx?_split cmds k ck h2
  have happ : applyCommands remote cmds = .error e := by
    rw [hsplit, applyCommands_append, h1]
    simp only [applyCommands, h3]
  simp [gitClonePatchCommitPush, happ]

/-- C1 witness: a concrete two-command request whose second command fails
on a missing file produces the empty trace with no commit and no push. -/
theorem c1_pipeline_atomicity_witness :
    gitClonePatchCommitPush [] true true ⟨"m", ⟨"a", "a@x"⟩⟩ none ⟨"", none, none⟩
      [PatchCommand.createFile "a.yaml" (Node.mapping []),
       PatchCommand.setFieldCmd "b.yaml" "x" (GoValue.str "1") false] =
      ⟨[], false, [], .error .fileDoesNotExist⟩ :=
  c1_pipeline_atomicity [] [("a.yaml", Node.mapping [])] _ 1 _ _ true _ none _
    rfl rfl rfl

/-- C2 counterexample: a predicate path matching two nodes does not apply
the mutation to every match; Patcher.SetField fails with the
multiple-nodes-matched error instead. -/
theorem c2_counterexample :
    SetField cMultiDoc cPredFieldX (GoValue.str "3") false =
      .error .multipleNodesMatched ∧
    (resolve cMultiDoc ((parsePath cPredFieldX).getD [])).length = 2 :=
  ⟨rfl, rfl⟩

/-- C2 amended: whenever the parsed path matches more than one node,
Patcher.SetField fails with the multiple-nodes-matched error; the mutation
is applied only when exactly one node matches. -/
theorem c2_amended (root : Node) (p : String) (segs : List Segment) (v : GoValue)
    (ck : Bool) (hparse : parsePath p = some segs)
    (hmulti : 2 ≤ (resolve root segs).length) :
    SetField root p v ck = .error .multipleNodesMatched := by
  match hres : resolve root segs with
  | [] => rw [hres] at hmulti; simp at hmulti
  | [am] => rw [hres] at hmulti; simp at hmulti
  | a :: b :: rest => simp [SetField, hparse, hres]

/-- C2 amended witness at the concrete two-match document. -/
theorem c2_amended_witness :
    SetField cMultiDoc cPredFieldX (GoValue.bool true) true =
      .error .multipleNodesMatched :=
  c2_amended cMultiDoc cPredFieldX
    [Segment.key "env", Segment.pred "name" "X", Segment.key "value"]
    (GoValue.bool true) true rfl (by decide)

/-- C4: the create-file command (modelled from the spec, since the current
handler version is absent from src) fails with FileAlreadyExists when the
path exists, and otherwise appends the literal content verbatim, with no
YAML validation of the content. -/
theorem c4_create_file (fs : List (String × String)) (p content : String)
    (hyaml : isYamlPath p = true) :
    (∀ c₀, fsLookup fs p = some c₀ →
      applyCreateFile fs p content = .error .fileAlreadyExists) ∧
    (fsLookup fs p = none →
      applyCreateFile fs p content = .ok (fs ++ [(p, content)]) ∧
      fsLookup (fs ++ [(p, content)]) p = some content) := by
  constructor
  · intro c₀ hc
    simp [applyCreateFile, hyaml, hc]
  · intro hnone
    refine ⟨by simp [applyCreateFile, hyaml, hnone], ?_⟩
    exact fsLookup_append_self fs p content hnone

/-- C4 witness: creating an existing path fails, creating a fresh path
stores arbitrary non-YAML text verbatim. -/
theorem c4_create_file_witness :
    applyCreateFile [("a.yml", "x: 1")] "a.yml" "y" = .error .fileAlreadyExists ∧
    applyCreateFile [("a.yml", "x: 1")] "b.yml" "not yaml at all ][" =
      .ok [("a.yml", "x: 1"), ("b.yml", "not yaml at all ][")] ∧
    fsLookup [("a.yml", "x: 1"), ("b.yml", "not yaml at all ][")] "b.yml" =
      some "not yaml at all ][" :=
  ⟨(c4_create_file [("a.yml", "x: 1")] "a.yml" "y" rfl).1 "x: 1" rfl,
   ((c4_create_file [("a.yml", "x: 1")] "b.yml" "not yaml at all ][" rfl).2 rfl).1,
   ((c4_create_file [("a.yml", "x: 1")] "b.yml" "not yaml at all ][" rfl).2 rfl).2⟩

/-- C5 counterexample: a createKeys set-field whose path has an index
segment and zero matches is not rejected; the dot-split treats the
bracketed text as a literal key and SetField silently creates a key whose
name includes the bracket text. -/
theorem c5_counterexample :
    SetField (Node.mapping [("a", Node.scalar "!!int" "1")]) "b[0]"
        (GoValue.str "x") true =
      .ok (Node.mapping [("a", Node.scalar "!!int" "1"),
        ("b[0]", Node.scalar "!!str" "x")]) ∧
    parsePath "b[0]" = some [Segment.key "b", Segment.index 0] :=
  ⟨rfl, rfl⟩

/-- C6: wire fields with an index segment and with a predicate segment
pass the (spec-modelled) validation and are executed by Patcher.SetField,
mutating the addressed node. -/
theorem c6_validation_and_execution :
    validateSetFieldField "spec.image.tag" = true ∧
    validateSetFieldField "spec.template.spec.containers[0].image" = true ∧
    validateSetFieldField cPredFieldBar = true ∧
    SetField cDeploymentDoc "spec.template.spec.containers[0].image"
        (GoValue.str "test.example.com:0.1.0") false =
      .ok (.mapping [("spec", .mapping [("template", .mapping [("spec", .mapping [("containers",
        .sequence [.mapping [("name", .scalar "!!str" "test"),
          ("image", .scalar "!!str" "test.example.com:0.1.0")]])])])])]) ∧
    SetField cEnvDoc cPredFieldBar (GoValue.str "3") false =
      .ok (.mapping [("spec", .mapping [("template", .mapping [("spec", .mapping [("containers",
        .sequence [.mapping [("env", .sequence [
          .mapping [("name", .scalar "!!str" "FOO"), ("value", .scalar "!!str" "1")],
          .mapping [("name", .scalar "!!str" "BAR"), ("value", .scalar "!!str" "3")]])]])])])])]) :=
  ⟨rfl, rfl, rfl, rfl, rfl⟩

/-- C7 counterexample: with no request committer and claims present, the
committer is derived from the claims, not taken from the configured
default identity as the claim's fallback chain requires. -/
theorem c7_counterexample :
    (buildCommitMsgAndOptions ⟨"m", ⟨"D", "d@x"⟩⟩ (some ⟨"u", "u@x"⟩)
        ⟨"", none, none⟩).2.2 = some ⟨"u", "u@x"⟩ ∧
    decide ((Signature.mk "u" "u@x") = ⟨"D", "d@x"⟩) = false :=
  ⟨rfl, by decide⟩

/-- C7 amended: the commit message is the request message when non-empty,
else the configured default; the author is the request author, else the
configured default author (claims are never used for the author); the
committer is the request committer, else derived from the claims, else
unset (the configured default is never used for the committer). -/
theorem c7_amended (cfg : CommitConfig) (claims : Option GitLabClaims)
    (rc : PatchRequestCommit) :
    (rc.message ≠ "" → (buildCommitMsgAndOptions cfg claims rc).1 = rc.message) ∧
    (rc.message = "" → (buildCommitMsgAndOptions cfg claims rc).1 = cfg.defaultMessage) ∧
    (∀ a, rc.author = some a → (buildCommitMsgAndOptions cfg claims rc).2.1 = some a) ∧
    (rc.author = none →
      (buildCommitMsgAndOptions cfg claims rc).2.1 = some cfg.defaultAuthor) ∧
    (∀ s, rc.committer = some s →
      (buildCommitMsgAndOptions cfg claims rc).2.2 = some s) ∧
    (∀ cl, rc.committer = none → claims = some cl →
      (buildCommitMsgAndOptions cfg claims rc).2.2 = some ⟨cl.userLogin, cl.userEmail⟩) ∧
    (rc.committer = none → claims = none →
      (buildCommitMsgAndOptions cfg claims rc).2.2 = none) := by
  refine ⟨?_, ?_, ?_, ?_, ?_, ?_, ?_⟩
  · intro h; simp [buildCommitMsgAndOptions, h]
  · intro h; simp [buildCommitMsgAndOptions, h]
  · intro a h; simp [buildCommitMsgAndOptions, h]
  · intro h; simp [buildCommitMsgAndOptions, h]
  · intro s h; simp [buildCommitMsgAndOptions, h]
  · intro cl h hcl; simp [buildCommitMsgAndOptions, h, hcl]
  · intro h hcl; simp [buildCommitMsgAndOptions, h, hcl]

/-- C7 amended witness at concrete inputs exercising the fallbacks. -/
theorem c7_amended_witness :
    (buildCommitMsgAndOptions ⟨"dm", ⟨"D", "d@x"⟩⟩ (some ⟨"u", "u@x"⟩)
        ⟨"", none, none⟩).1 = "dm" ∧
    (buildCommitMsgAndOptions ⟨"dm", ⟨"D", "d@x"⟩⟩ (some ⟨"u", "u@x"⟩)
        ⟨"", none, none⟩).2.1 = some ⟨"D", "d@x"⟩ ∧
    (buildCommitMsgAndOptions ⟨"dm", ⟨"D", "d@x"⟩⟩ (some ⟨"u", "u@x"⟩)
        ⟨"", none, none⟩).2.2 = some ⟨"u", "u@x"⟩ :=
  ⟨(c7_amended ⟨"dm", ⟨"D", "d@x"⟩⟩ (some ⟨"u", "u@x"⟩) ⟨"", none, none⟩).2.1 rfl,
   (c7_amended ⟨"dm", ⟨"D", "d@x"⟩⟩ (some ⟨"u", "u@x"⟩) ⟨"", none, none⟩).2.2.2.1 rfl,
   (c7_amended ⟨"dm", ⟨"D", "d@x"⟩⟩ (some ⟨"u", "u@x"⟩) ⟨"", none, none⟩).2.2.2.2.2.1
     ⟨"u", "u@x"⟩ rfl rfl⟩

/-- C8: an empty violation set allows the request (no error response); a
non-empty set denies it with a 403 whose body carries every violation
message, one rendered line per violation; a failing policy evaluation is a
500 error, never a 403 denial. -/
theorem c8_authorizer :
    (AllowPatch (.ok []) = .allowed ∧
      patchAuthzResponse (AllowPatch (.ok [])) = none) ∧
    (∀ vs : List String, vs ≠ [] →
      AllowPatch (.ok (vs.map (fun m => ⟨some (RegoVal.str m)⟩))) =
        .violationsError vs ∧
      patchAuthzResponse (.violationsError vs) =
        some (403, "Authorization failed:\n\n" ++ renderViolations vs) ∧
      ∀ v ∈ vs, strContainsSub ("Authorization failed:\n\n" ++ renderViolations vs)
        ("- " ++ v ++ "\n")) ∧
    (AllowPatch (.error ()) = .unexpectedError ∧
      patchAuthzResponse (AllowPatch (.error ())) = some (500, "Authorization error") ∧
      (500 : Nat) ≠ 403) := by
  refine ⟨⟨rfl, rfl⟩, ?_, rfl, rfl, by decide⟩
  intro vs hvs
  refine ⟨?_, rfl, ?_⟩
  · match vs with
    | [] => cases hvs rfl
    | s :: rest =>
      simp only [AllowPatch, List.map]
      rw [show collectMsgs (⟨some (RegoVal.str s)⟩ ::
        rest.map (fun m => ⟨some (RegoVal.str m)⟩)) = some (s :: rest) from
          collectMsgs_map (s :: rest)]
  · intro v hv
    exact strContainsSub_append_left _ _ _ (renderViolations_contains vs v hv)

/-- Every missing-key walk starts at a mapping with a non-empty path. -/
theorem missingWalk_mapping (root : Node) (ks : List String)
    (h : missingWalk root ks = true) :
    ∃ es k rest, root = Node.mapping es ∧ ks = k :: rest := by
  cases root with
  | scalar t w => simp [missingWalk] at h
  | sequence xs => simp [missingWalk] at h
  | mapping es =>
    cases ks with
    | nil =>
      rw [missingWalk_nil] at h
      cases h
    | cons k rest => exact ⟨es, k, rest, rfl, rfl⟩

/-- The created chain below the first missing key appends one key per
level into a previously empty mapping. -/
theorem chainNode_appendRel (v : GoValue) (rest : List String) :
    rest ≠ [] → appendRel (Node.mapping []) rest (chainNode rest v) := by
  induction rest with
  | nil => intro h; cases h rfl
  | cons k ks ih =>
    intro _
    simp only [chainNode, appendRel, findEntry]
    refine ⟨[(k, chainNode ks v)], rfl, ?_, ?_⟩
    · simp [appendedLast]
    · cases ks with
      | nil => exact Or.inl rfl
      | cons k₂ ks₂ =>
        exact Or.inr ⟨chainNode (k₂ :: ks₂) v, rfl, ih (by simp)⟩

/-- A successful createKeys set appends each materialized key after all
existing entries of its mapping. -/
theorem createRel_appendRel (ks : List String) :
    ∀ (root : Node) (v : GoValue) (out : Node),
      createRel root ks v out → appendRel root ks out := by
  induction ks with
  | nil =>
    intro root v out h
    cases root <;> simp [createRel] at h
  | cons k ks ih =>
    intro root v out h
    cases root with
    | scalar t w => simp [createRel] at h
    | sequence xs => simp [createRel] at h
    | mapping es =>
      cases hfe : findEntry k es with
      | some ic =>
        simp only [createRel, hfe] at h
        obtain ⟨c₁, hout, hrel⟩ := h
        simp only [appendRel, hfe]
        exact ⟨c₁, hout, ih ic.2 v c₁ hrel⟩
      | none =>
        simp only [createRel, hfe] at h
        simp only [appendRel, hfe]
        refine ⟨es ++ [(k, chainNode ks v)], h, ⟨by simp, ?_, ?_⟩, ?_⟩
        · rw [List.take_left]
        · rw [List.drop_left]
          rfl
        · cases ks with
          | nil => exact Or.inl rfl
          | cons k₂ ks₂ =>
            refine Or.inr ⟨chainNode (k₂ :: ks₂) v, ?_, chainNode_appendRel v (k₂ :: ks₂) (by simp)⟩
            rw [List.drop_left]

/-- C3: for a dot-separated key path whose target key is absent (zero
matches, with the walk blocked only by a missing mapping key), SetField
with createKeys false fails with the no-nodes-matched error, and with
createKeys true succeeds, materializing every missing intermediate key as
a mapping, the terminal key as a scalar, and leaving every pre-existing
entry of every traversed mapping unchanged (the createRel relation). -/
theorem c3_create_keys_policy (root : Node) (p : String) (ks : List String) (v : GoValue)
    (hparse : parsePath p = some (ks.map Segment.key))
    (hsplit : goSplitDot p = ks)
    (habsent : resolve root (ks.map Segment.key) = [])
    (hwalk : missingWalk root ks = true) :
    SetField root p v false = .error .noNodesMatched ∧
    ∃ root₁, SetField root p v true = .ok root₁ ∧ createRel root ks v root₁ := by
  obtain ⟨es, k, rest, hroot, hks⟩ := missingWalk_mapping root ks hwalk
  constructor
  · simp [SetField, hparse, habsent]
  · obtain ⟨root₁, addr, hrec, hget, hrel⟩ := recurseNodeByPath_missing ks root hwalk
    refine ⟨setAt root₁ addr (encodeScalar v), ?_, hrel v⟩
    have hnull : isNullScalar root = false := by
      rw [hroot]
      rfl
    simp [SetField, hparse, habsent, hnull, hsplit, hrec, hget]

/-- C3 witness: creating the missing path spec.image.tag in a document
holding only an unrelated key. -/
theorem c3_create_keys_policy_witness :
    SetField (Node.mapping [("foo", Node.scalar "!!str" "bar")]) "spec.image.tag"
        (GoValue.str "0.2.0") false = .error .noNodesMatched ∧
    ∃ root₁,
      SetField (Node.mapping [("foo", Node.scalar "!!str" "bar")]) "spec.image.tag"
          (GoValue.str "0.2.0") true = .ok root₁ ∧
      createRel (Node.mapping [("foo", Node.scalar "!!str" "bar")])
        ["spec", "image", "tag"] (GoValue.str "0.2.0") root₁ :=
  c3_create_keys_policy (Node.mapping [("foo", Node.scalar "!!str" "bar")])
    "spec.image.tag" ["spec", "image", "tag"] (GoValue.str "0.2.0") rfl rfl rfl rfl

/-- C5 amended: a createKeys set-field whose parsed path contains an index
or predicate segment and matches nothing is not rejected; the creation
walk runs on the dot-split raw path, treating bracket text as part of
literal key names, and succeeds whenever that walk only misses mapping
keys. -/
theorem c5_amended (root : Node) (p : String) (segs : List Segment) (v : GoValue)
    (hparse : parsePath p = some segs)
    (hseg : segs.any (fun s => match s with | .key _ => false | _ => true) = true)
    (habsent : resolve root segs = [])
    (hwalk : missingWalk root (goSplitDot p) = true) :
    ∃ root₁, SetField root p v true = .ok root₁ ∧
      createRel root (goSplitDot p) v root₁ := by
  obtain ⟨es, k, rest, hroot, hks⟩ := missingWalk_mapping root _ hwalk
  obtain ⟨root₁, addr, hrec, hget, hrel⟩ :=
    recurseNodeByPath_missing (goSplitDot p) root hwalk
  refine ⟨setAt root₁ addr (encodeScalar v), ?_, hrel v⟩
  have hnull : isNullScalar root = false := by
    rw [hroot]
    rfl
  simp [SetField, hparse, habsent, hnull, hrec, hget]

/-- C5 amended witness: the index path creates a literal bracket-named
key. -/
theorem c5_amended_witness :
    ∃ root₁,
      SetField (Node.mapping [("a", Node.scalar "!!int" "1")]) "b[0]"
          (GoValue.str "x") true = .ok root₁ ∧
      createRel (Node.mapping [("a", Node.scalar "!!int" "1")]) (goSplitDot "b[0]")
        (GoValue.str "x") root₁ :=
  c5_amended (Node.mapping [("a", Node.scalar "!!int" "1")]) "b[0]"
    [Segment.key "b", Segment.index 0] (GoValue.str "x") rfl rfl rfl rfl

/-- C9 counterexample: a set-field is not idempotent when the predicate
selects on the field being set; the first application succeeds and the
identical second application fails with no nodes matched. -/
theorem c9_counterexample :
    SetField cSelfPredDoc cSelfPredField (GoValue.str "3") false =
      .ok (.mapping [("env", .sequence [.mapping [("value", .scalar "!!str" "3")]])]) ∧
    SetField (.mapping [("env", .sequence [.mapping [("value", .scalar "!!str" "3")]])])
        cSelfPredField (GoValue.str "3") false = .error .noNodesMatched :=
  ⟨rfl, rfl⟩

/-- C9 amended: SetField is idempotent whenever the path matches a node,
for any mix of key, index and predicate segments, provided every predicate
segment selects on a field other than the one the rest of the path descends
into, and also in the createKeys branch for dot-separated key-only paths:
if one application succeeds, the identical second application succeeds and
returns the same document unchanged.  Idempotence genuinely fails only for
a predicate that selects on the mutated field, as in the counterexample. -/
theorem c9_amended (root : Node) (p : String) (segs : List Segment) (v : GoValue)
    (ck : Bool) (root₁ : Node)
    (hparse : parsePath p = some segs)
    (hsafe : predsSafe segs = true)
    (hcase : resolve root segs ≠ [] ∨
      ∃ ks, segs = ks.map Segment.key ∧ goSplitDot p = ks)
    (h1 : SetField root p v ck = .ok root₁) :
    SetField root₁ p v ck = .ok root₁ := by
  simp only [SetField, hparse] at h1
  split at h1
  · rename_i hres
    rcases hcase with hne | ⟨ks, hkeys, hsplit⟩
    · exact absurd hres hne
    subst hkeys
    rw [hsplit] at h1
    split at h1
    · rename_i hck
      split at h1
      · rename_i e hrec
        simp at h1
      · rename_i r₁ addr hrec
        split at h1
        · rename_i tag value hget
          rw [Except.ok.injEq] at h1
          have hres₀ : resolve (if isNullScalar root then Node.mapping [] else root)
              (ks.map Segment.key) = [] := by
            by_cases hn : isNullScalar root = true
            · rw [if_pos hn]
              cases ks with
              | nil =>
                rw [List.map_nil, resolve_nil] at hres
                exact absurd hres (by simp)
              | cons k ks₂ =>
                rw [List.map_cons, resolve_cons]
                simp [childCandidates, keyCandidates, bindAll]
            · rw [if_neg hn]
              exact hres
          have hsingle := resolve_after_create ks _ r₁ addr (encodeScalar v) hres₀ hrec
          rw [h1] at hsingle
          have hg : getAt root₁ addr = some (encodeScalar v) := by
            rw [← h1]
            exact getAt_setAt_self addr r₁ (Node.scalar tag value) (encodeScalar v) hget
          have hgoal : SetField root₁ p v ck =
              Except.ok (setAt root₁ addr (encodeScalar v)) := by
            simp only [SetField, hparse, hsingle]
            rfl
          rw [hgoal, setAt_getAt_self addr root₁ (encodeScalar v) hg]
        · simp at h1
    · simp at h1
  · rename_i am hres
    split at h1
    · rename_i tag value hsc
      rw [Except.ok.injEq] at h1
      obtain ⟨a, n⟩ := am
      simp only at hsc
      subst hsc
      simp only at h1
      have hsingle := resolve_setAt_stable segs root a (Node.scalar tag value)
        (encodeScalar v) hsafe hres
      rw [h1] at hsingle
      have hgold : getAt root a = some (Node.scalar tag value) :=
        resolve_mem_getAt segs root a (Node.scalar tag value)
          (by rw [hres]; exact List.mem_singleton.mpr rfl)
      have hg : getAt root₁ a = some (encodeScalar v) := by
        rw [← h1]
        exact getAt_setAt_self a root (Node.scalar tag value) (encodeScalar v) hgold
      have hgoal : SetField root₁ p v ck =
          Except.ok (setAt root₁ a (encodeScalar v)) := by
        simp only [SetField, hparse, hsingle]
        rfl
      rw [hgoal, setAt_getAt_self a root₁ (encodeScalar v) hg]
    · simp at h1
  · simp at h1

/-- C9 amended witness: the repository test path with an index segment and
a predicate on the name field, setting the value field twice. -/
theorem c9_amended_witness :
    SetField cEnvDocBar42 cPredFieldBar (GoValue.str "42") false = .ok cEnvDocBar42 :=
  c9_amended cEnvDoc cPredFieldBar cSegsBar (GoValue.str "42") false cEnvDocBar42
    rfl rfl
    (Or.inl (by
      rw [show resolve cEnvDoc cSegsBar =
        [([0, 0, 0, 0, 0, 0, 1, 1], Node.scalar "!!str" "2")] from rfl]
      exact List.cons_ne_nil _ _))
    rfl

/-- C10: every key materialized by a createKeys set-field is appended
after all existing entries of its mapping: the relative order of
pre-existing entries is preserved and the created key is last (the
appendRel relation). -/
theorem c10_created_key_appended (root : Node) (p : String) (ks : List String)
    (v : GoValue)
    (hparse : parsePath p = some (ks.map Segment.key))
    (hsplit : goSplitDot p = ks)
    (habsent : resolve root (ks.map Segment.key) = [])
    (hwalk : missingWalk root ks = true) :
    ∃ root₁, SetField root p v true = .ok root₁ ∧ appendRel root ks root₁ := by
  obtain ⟨es, k, rest, hroot, hks⟩ := missingWalk_mapping root ks hwalk
  obtain ⟨root₁, addr, hrec, hget, hrel⟩ := recurseNodeByPath_missing ks root hwalk
  refine ⟨setAt root₁ addr (encodeScalar v), ?_, createRel_appendRel ks root v _ (hrel v)⟩
  have hnull : isNullScalar root = false := by
    rw [hroot]
    rfl
  simp [SetField, hparse, habsent, hnull, hsplit, hrec, hget]

/-- C10 witness: the created tag key lands after the existing name key. -/
theorem c10_created_key_appended_witness :
    ∃ root₁,
      SetField (Node.mapping [("spec", Node.mapping [("image",
          Node.mapping [("name", Node.scalar "!!str" "my/image")])])])
        "spec.image.tag" (GoValue.str "0.2.0") true = .ok root₁ ∧
      appendRel (Node.mapping [("spec", Node.mapping [("image",
          Node.mapping [("name", Node.scalar "!!str" "my/image")])])])
        ["spec", "image", "tag"] root₁ :=
  c10_created_key_appended (Node.mapping [("spec", Node.mapping [("image",
      Node.mapping [("name", Node.scalar "!!str" "my/image")])])])
    "spec.image.tag" ["spec", "image", "tag"] (GoValue.str "0.2.0") rfl rfl rfl rfl

/-- C8 witness with two concrete violations. -/
theorem c8_authorizer_witness :
    AllowPatch (.ok [⟨some (RegoVal.str "v1")⟩, ⟨some (RegoVal.str "v2")⟩]) =
      .violationsError ["v1", "v2"] ∧
    patchAuthzResponse (.violationsError ["v1", "v2"]) =
      some (403, "Authorization failed:\n\n" ++ renderViolations ["v1", "v2"]) :=
  ⟨((c8_authorizer.2.1 ["v1", "v2"] (by decide)).1 :),
   (c8_authorizer.2.1 ["v1", "v2"] (by decide)).2.1⟩

end Vignet
